import Mathlib

/-!
QuickStats: descriptive statistics over sample arrays.

A shallow embedding of `libraries/QuickStats-master/QuickStats.cpp`.

* A C array `float samples[]` is a `List α`; the length argument `int m` is passed next
  to it as a `Nat`, as in the source.  The theorems take `m` to be the length of the list.
* `float` is read as an exact number: an arbitrary linear order for the sorting code, an
  arbitrary linearly ordered field (`ℚ`, `ℝ`) for the arithmetic code.
* A loop `for(int i=a;i<b;i++)` is a left fold over the index range, the loop body being
  a step function on the loop state.
* The `do … while` loop of `bubbleSort` carries a budget of passes and yields `none` when
  the budget runs out.
* The read-only loops fetch `samples[i]` with `List.getD`.  The code that returns a cell or
  fills a local array (`minimum`, `maximum`, `median`, `mode`, `filternan`) fetches with
  `[i]?` and fails with `none` on a cell outside the array or never written; the swap of
  `bubbleSort` and the assignment of `f_round` fetch with `[i]?` and do nothing outside the
  array.
* The functions of `math.h` are not part of the source: `sqrt`, `isnan` and `isinf` are
  parameters of the functions that call them, and `round` is the nearest integer with
  halves away from zero.
* Where the rounding, the overflow or the zero divisor of `float` arithmetic decides a
  property, the line in question is embedded a second time on `FloatVal`: `fl32` rounds
  an exact result to IEEE 754 binary32, `FloatVal.add`, `FloatVal.sub`, `FloatVal.div`,
  `FloatVal.lt` and `FloatVal.le` are the float operations, `median32` and `mode32` are
  `median` and `mode` with the arithmetic of lines 129 and 160 in binary32, and
  `slopeValue` is the return value of `slope` with the float division of line 197.
-/

namespace QuickStats

/-! ## Definitions -/

section Sorting

variable {α : Type} [LinearOrder α]

/-- Body of the inner `for` loop of `bubbleSort` at index `p`, on the state
`(A, newn)`: `if(A[p-1]>A[p]){temp=A[p]; A[p]=A[p-1]; A[p-1]=temp; newn=p;}`. -/
def swapStep (st : List α × Nat) (p : Nat) : List α × Nat :=
  match st.1[p - 1]?, st.1[p]? with
  | some a, some b =>
    if a > b then ((st.1.set p a).set (p - 1) b, p) else st
  | _, _ => st

/-- One pass of the `do` body: `newn=1; for(int p=1;p<len;p++){…}`.
Returns the array after the pass and the final `newn`. -/
def bubblePass (A : List α) (len : Nat) : List α × Nat :=
  (List.range' 1 (len - 1)).foldl swapStep (A, 1)

/-- The loop `do { pass; n=newn; } while(n>1);` with a budget of passes. -/
def bubbleLoop : Nat → List α → Nat → Option (List α)
  | 0, _, _ => none
  | fuel + 1, A, len =>
    if (bubblePass A len).2 > 1 then bubbleLoop fuel (bubblePass A len).1 len
    else some (bubblePass A len).1

/-- The procedure `QuickStats::bubbleSort(A, len)`; the result is the final content of
`A`.  The budget is `len + 1` passes. -/
def bubbleSort (A : List α) (len : Nat) : Option (List α) :=
  bubbleLoop (len + 1) A len

/-- The copy loop `float sorted[m]; for(int i=0;i<m;i++){ sorted[i]=samples[i]; }`. -/
def copySamples {β : Type} [Zero β] (samples : List β) (m : Nat) : List β :=
  (List.range m).map fun i => samples.getD i 0

variable [Zero α]

/-- The function `QuickStats::minimum`: copy, sort, `return(sorted[0])`. -/
def minimum (samples : List α) (m : Nat) : Option α :=
  (bubbleSort (copySamples samples m) m).bind fun sorted => sorted[0]?

/-- The function `QuickStats::maximum`: copy, sort, `return(sorted[m-1])`. -/
def maximum (samples : List α) (m : Nat) : Option α :=
  (bubbleSort (copySamples samples m) m).bind fun sorted => sorted[m - 1]?

end Sorting

section Statistics

variable {α : Type} [LinearOrderedField α]

/-- The accumulator `avg1` of `QuickStats::average` after the first `k` iterations of
`for(int i=0;i<m;i++){ avg1+=(samples[i]-avg1)/(i+1); }`, started from `0.0`. -/
def averageAcc (samples : List α) (k : Nat) : α :=
  (List.range k).foldl (fun avg1 i => avg1 + (samples.getD i 0 - avg1) / ((i + 1 : Nat) : α)) 0

/-- The function `QuickStats::average(samples, m)`. -/
def average (samples : List α) (m : Nat) : α :=
  averageAcc samples m

/-- The sum `total2` of `QuickStats::stdev`:
`for(int i=0;i<m;i++){ total2 = total2 + pow(samples[i] - avg,2); }`. -/
def total2 (samples : List α) (m : Nat) (avg : α) : α :=
  (List.range m).foldl (fun t i => t + (samples.getD i 0 - avg) ^ 2) 0

/-- The function `QuickStats::stdev`: `return sqrt(total2/((float)m-1.0))`.  The library
function `sqrt` of `math.h` is a parameter. -/
def stdev (sqrt : α → α) (samples : List α) (m : Nat) : α :=
  sqrt (total2 samples m (average samples m) / ((m : α) - 1))

/-- The function `QuickStats::stderror`: `temp1=stdev(samples,m); return (temp1/sqrt((float)m))`. -/
def stderror (sqrt : α → α) (samples : List α) (m : Nat) : α :=
  stdev sqrt samples m / sqrt (m : α)

/-- The function `QuickStats::CV`: `return 100.0*sd/avg`. -/
def CV (sqrt : α → α) (samples : List α) (m : Nat) : α :=
  100 * stdev sqrt samples m / average samples m

/-- The function `QuickStats::fabs`. -/
def fabs (sample : α) : α :=
  if sample < 0 then -sample else sample

/-- Arduino's `bitRead(value, bit)`, which is `(((value) >> (bit)) & 0x01)`. -/
def bitRead (value bit : Nat) : Nat :=
  (value >>> bit) &&& 1

/-- The function `QuickStats::median`: copy, sort, then
`if (bitRead(m,0)==1) return sorted[m/2]; else return (sorted[(m/2)-1]+sorted[m/2])/2;`. -/
def median (samples : List α) (m : Nat) : Option α :=
  (bubbleSort (copySamples samples m) m).bind fun sorted =>
    if bitRead m 0 = 1 then sorted[m / 2]?
    else
      match sorted[m / 2 - 1]?, sorted[m / 2]? with
      | some lo, some hi => some ((lo + hi) / 2)
      | _, _ => none

/-- Locals of the scan loop of `QuickStats::mode`.  A cell of `unique[]` or `uniquect[]`
is `none` until it is written. -/
structure ModeState (α : Type) where
  /-- The array `float unique[m]`. -/
  unique : List (Option α)
  /-- The array `int uniquect[m]`. -/
  uniquect : List (Option Nat)
  /-- The counter `p`. -/
  p : Nat
  /-- The largest count seen, `maxp`. -/
  maxp : Nat
  /-- The bucket holding it, `maxidx`. -/
  maxidx : Nat

/-- State of `mode` before the scan: `unique[0]=sorted[0]; uniquect[0]=1; p=0; maxp=0;
maxidx=0;` on arrays of `m` cells.  Fails when `m = 0`. -/
def modeInit (sorted : List α) (m : Nat) : Option (ModeState α) :=
  match sorted[0]? with
  | some s0 =>
    if 0 < m then
      some { unique := (List.replicate m none).set 0 (some s0)
             uniquect := (List.replicate m none).set 0 (some 1)
             p := 0, maxp := 0, maxidx := 0 }
    else none
  | none => none

/-- Body of the scan loop of `mode` at index `i`:
`if(fabs(sorted[i]-sorted[p])<epsilon){ uniquect[p]++; if(uniquect[p]>maxp){ maxp=uniquect[p];
maxidx=p; } } else { p++; unique[p]=sorted[i]; uniquect[p]=1; }`. -/
def modeStep (sorted : List α) (epsilon : α) (st : ModeState α) (i : Nat) :
    Option (ModeState α) :=
  match sorted[i]?, sorted[st.p]? with
  | some si, some sp =>
    if fabs (si - sp) < epsilon then
      match st.uniquect[st.p]? with
      | some (some c) =>
        if c + 1 > st.maxp then
          some { st with uniquect := st.uniquect.set st.p (some (c + 1))
                         maxp := c + 1, maxidx := st.p }
        else
          some { st with uniquect := st.uniquect.set st.p (some (c + 1)) }
      | _ => none
    else
      if st.p + 1 < st.unique.length ∧ st.p + 1 < st.uniquect.length then
        some { st with p := st.p + 1
                       unique := st.unique.set (st.p + 1) (some si)
                       uniquect := st.uniquect.set (st.p + 1) (some 1) }
      else none
  | _, _ => none

/-- The scan loop `for(int i=1;i<m;i++){…}` of `mode`. -/
def modeScan (sorted : List α) (m : Nat) (epsilon : α) (st : ModeState α) :
    Option (ModeState α) :=
  (List.range' 1 (m - 1)).foldl (fun acc i => acc.bind fun s => modeStep sorted epsilon s i)
    (some st)

/-- The function `QuickStats::mode`: copy, sort, scan, then
`if (maxp>1) return unique[maxidx]; else return 0.0;`. -/
def mode (samples : List α) (m : Nat) (epsilon : α) : Option α :=
  (bubbleSort (copySamples samples m) m).bind fun sorted =>
    (modeInit sorted m).bind fun st0 =>
      (modeScan sorted m epsilon st0).bind fun st =>
        if st.maxp > 1 then
          match st.unique[st.maxidx]? with
          | some (some u) => some u
          | _ => none
        else some 0

/-- Body of the loop of `QuickStats::slope` at index `i`, on the state
`(numerator, denominator)`. -/
def slopeStep (x samples : List α) (xavg yavg : α) (st : α × α) (i : Nat) : α × α :=
  if x.getD i 0 - xavg ≠ 0 then
    (st.1 + (x.getD i 0 - xavg) * (samples.getD i 0 - yavg),
     st.2 + (x.getD i 0 - xavg) * (x.getD i 0 - xavg))
  else st

/-- The pair `(numerator, denominator)` at the end of the loop of `QuickStats::slope`. -/
def slopeSums (x samples : List α) (m : Nat) : α × α :=
  (List.range m).foldl (slopeStep x samples (average x m) (average samples m)) (0, 0)

/-- The function `QuickStats::slope`: `return numerator/denominator`. -/
def slope (x samples : List α) (m : Nat) : α :=
  (slopeSums x samples m).1 / (slopeSums x samples m).2

/-- The function `QuickStats::intercept`: `return yavg-(beta*xavg)`. -/
def intercept (x samples : List α) (m : Nat) : α :=
  average samples m - slope x samples m * average x m

/-- Specification of the least-squares numerator, for comparison with `slopeSums`: the sum
over all indices `i < m` of `(x[i] - xavg) * (y[i] - yavg)`, with `xavg`, `yavg` the
arithmetic means. -/
def olsNumerator (x y : List α) : α :=
  ∑ i ∈ Finset.range x.length,
    (x.getD i 0 - x.sum / (x.length : α)) * (y.getD i 0 - y.sum / (y.length : α))

/-- Specification of the least-squares denominator, for comparison with `slopeSums`: the
sum over all indices `i < m` of `(x[i] - xavg)^2`. -/
def olsDenominator (x : List α) : α :=
  ∑ i ∈ Finset.range x.length, (x.getD i 0 - x.sum / (x.length : α)) ^ 2

/-- Specification of the ordinary least-squares slope of `y` on `x`. -/
def olsSlope (x y : List α) : α :=
  olsNumerator x y / olsDenominator x

end Statistics

section Sorting

variable {α : Type} [LinearOrder α]

/-- List view of one pass, used to reason about `bubblePass`: `a` is the value
currently held in `A[p-1]`, `l` the cells `A[p], A[p+1], …` still to be visited and `n`
the current `newn`.  `bubblePass_cons` shows that it computes the pass. -/
def bubAux : Nat → Nat → α → List α → List α × Nat
  | _, n, a, [] => ([a], n)
  | p, n, a, b :: l =>
    if a > b then (b :: (bubAux (p + 1) p a l).1, (bubAux (p + 1) p a l).2)
    else (a :: (bubAux (p + 1) n b l).1, (bubAux (p + 1) n b l).2)

end Sorting

section Rounding

variable {α : Type} [LinearOrderedField α] [FloorRing α]

/-- The function `round` of `math.h`, as a function on exact numbers: the nearest integer,
halfway cases away from zero. -/
def round (v : α) : α :=
  if 0 ≤ v then ((⌊v + 1 / 2⌋ : ℤ) : α) else ((⌈v - 1 / 2⌉ : ℤ) : α)

/-- Body of the loop of `QuickStats::f_round` at index `i`:
`samples[i]=round(samples[i]*precision)/precision;`. -/
def roundStep (precision : α) (samples : List α) (i : Nat) : List α :=
  match samples[i]? with
  | some v => samples.set i (round (v * precision) / precision)
  | none => samples

/-- The procedure `QuickStats::f_round(samples, m, p)`: `float precision=pow(10.0,p);` and
the loop over `i < m`.  The result is the final content of `samples`. -/
def f_round (samples : List α) (m : Nat) (p : ℤ) : List α :=
  (List.range m).foldl (roundStep ((10 : α) ^ p)) samples

end Rounding

section Cleaning

/-- A `float` cell as `isnan` and `isinf` classify it: a finite number, NaN, +Infinity or
-Infinity. -/
inductive FloatVal where
  /-- A finite number. -/
  | finite (q : ℚ)
  /-- Not a number. -/
  | nan
  /-- Positive infinity. -/
  | posInf
  /-- Negative infinity. -/
  | negInf
  deriving DecidableEq

/-- The classification `isnan` of `math.h` on `FloatVal`. -/
def FloatVal.isnan : FloatVal → Bool
  | .nan => true
  | _ => false

/-- The classification `isinf` of `math.h` on `FloatVal`. -/
def FloatVal.isinf : FloatVal → Bool
  | .posInf => true
  | .negInf => true
  | _ => false

variable {β : Type}

/-- Locals of the first loop of `QuickStats::filternan`.  A cell of `filtered[]` is `none`
until it is written. -/
structure FilterState (β : Type) where
  /-- The array `float filtered[m]`. -/
  filtered : List (Option β)
  /-- The counter `duds`. -/
  duds : Nat
  /-- The counter `nums`. -/
  nums : Nat

/-- Body of the first loop of `filternan` at index `i`:
`if(isnan(samples[i])||isinf(samples[i])){ duds++; }else{ filtered[nums]=samples[i]; nums++; }`.
The classifications `isnan` and `isinf` are parameters. -/
def filterStep (isnan isinf : β → Bool) (samples : List β) (st : FilterState β) (i : Nat) :
    Option (FilterState β) :=
  match samples[i]? with
  | some v =>
    if isnan v || isinf v then some { st with duds := st.duds + 1 }
    else if st.nums < st.filtered.length then
      some { st with filtered := st.filtered.set st.nums (some v), nums := st.nums + 1 }
    else none
  | none => none

/-- Body of the second loop of `filternan` at index `i`: `samples[i]=filtered[i];`. -/
def copyBackStep (filtered : List (Option β)) (samples : List β) (i : Nat) :
    Option (List β) :=
  match filtered[i]? with
  | some (some v) => if i < samples.length then some (samples.set i v) else none
  | _ => none

/-- The procedure `QuickStats::filternan(samples, m)`: the result is the final content of
`samples` and the final value of the reference parameter `m`. -/
def filternan (isnan isinf : β → Bool) (samples : List β) (m : Nat) : Option (List β × Nat) :=
  ((List.range m).foldl (fun acc i => acc.bind fun st => filterStep isnan isinf samples st i)
      (some { filtered := List.replicate m none, duds := 0, nums := 0 })).bind fun st =>
    ((List.range st.nums).foldl (fun acc i => acc.bind fun A => copyBackStep st.filtered A i)
      (some samples)).map fun A => (A, st.nums)

end Cleaning

section PassLog

variable {α : Type} [LinearOrder α]

/-- The body `swapStep` of the inner loop of `bubbleSort`, with a log: each time the test
`A[p-1]>A[p]` is evaluated the log receives the index `p` and the outcome of the test. -/
def swapStepLog (st : (List α × Nat) × List (Nat × Bool)) (p : Nat) :
    (List α × Nat) × List (Nat × Bool) :=
  match st.1.1[p - 1]?, st.1.1[p]? with
  | some a, some b => (swapStep st.1 p, st.2 ++ [(p, decide (a > b))])
  | _, _ => (swapStep st.1 p, st.2)

/-- One pass of `bubbleSort` with the log of its comparisons. -/
def bubblePassLog (A : List α) (len : Nat) : (List α × Nat) × List (Nat × Bool) :=
  (List.range' 1 (len - 1)).foldl swapStepLog ((A, 1), [])

/-- Number of inversions of a list: the pairs of positions `i < j` with `A[i] > A[j]`. -/
def inversions : List α → Nat
  | [] => 0
  | a :: l => (l.countP fun b => a > b) + inversions l

end PassLog

section ModeInvariant

variable {α : Type} [LinearOrderedField α]

/-- Invariant of the scan loop of `mode` on the sorted copy `B`, for the state reached after
the indices `1, …, k`: the arrays have `m` cells, `p ≤ k`, `maxidx ≤ p`, the cells `0, …, p`
of `unique[]` and `uniquect[]` are written (with an element of `B`, and a count of at least
one), and either no comparison has succeeded yet (then `maxp = 0`, `p = k` and no two
neighbours among `B[0..k]` are closer than `epsilon`) or `maxp > 1` and two neighbours among
`B[0..k]` are closer than `epsilon`. -/
structure ModeInv (B : List α) (epsilon : α) (k : Nat) (st : ModeState α) : Prop where
  unique_length : st.unique.length = B.length
  uniquect_length : st.uniquect.length = B.length
  p_le : st.p ≤ k
  maxidx_le : st.maxidx ≤ st.p
  unique_written : ∀ j, j ≤ st.p → ∃ u, st.unique[j]? = some (some u) ∧ u ∈ B
  uniquect_written : ∀ j, j ≤ st.p → ∃ c, st.uniquect[j]? = some (some c) ∧ 1 ≤ c
  branch :
    (st.maxp = 0 ∧ st.p = k ∧
      ∀ j, j + 1 ≤ k → ¬ fabs (B.getD (j + 1) 0 - B.getD j 0) < epsilon) ∨
    (1 < st.maxp ∧ ∃ j, j + 1 ≤ k ∧ fabs (B.getD (j + 1) 0 - B.getD j 0) < epsilon)

end ModeInvariant

section Binary32

/-- Nearest integer to an exact number, halfway cases to the even neighbour: the rounding
of IEEE 754 arithmetic. -/
def roundEven (x : ℚ) : ℤ :=
  if x - ⌊x⌋ < 1 / 2 then ⌊x⌋
  else if 1 / 2 < x - ⌊x⌋ then ⌊x⌋ + 1
  else if ⌊x⌋ % 2 = 0 then ⌊x⌋ else ⌊x⌋ + 1

/-- Position of the leading bit of `n`, found by halving at most `fuel` times. -/
def leadBitAux : Nat → Nat → Nat
  | 0, _ => 0
  | fuel + 1, n => if n < 2 then 0 else leadBitAux fuel (n / 2) + 1

/-- Position of the leading bit of a natural number: the `k` with `2^k ≤ n < 2^(k+1)`
(and `0` for `n = 0`). -/
def leadBit (n : Nat) : Nat :=
  leadBitAux n n

/-- Exponent of the leading bit of a non-zero exact number: the `e` with
`2^e ≤ |x| < 2^(e+1)`. -/
def leadExp (x : ℚ) : ℤ :=
  if (2 : ℚ) ^ ((leadBit x.num.natAbs : ℤ) - (leadBit x.den : ℤ)) ≤ |x| then
    (leadBit x.num.natAbs : ℤ) - (leadBit x.den : ℤ)
  else (leadBit x.num.natAbs : ℤ) - (leadBit x.den : ℤ) - 1

/-- The `float` (IEEE 754 binary32) that an arithmetic operation delivers when its exact
result is `x`: 24 significant bits, smallest unit `2^-149`, nearest value with ties to
even, and an infinity when the rounded magnitude reaches `2^128`.  The sign of a zero is
not recorded. -/
def fl32 (x : ℚ) : FloatVal :=
  if x = 0 then .finite 0
  else if (2 : ℚ) ^ (128 : ℤ)
      ≤ |(roundEven (x / 2 ^ max (leadExp x - 23) (-149)) : ℚ) * 2 ^ max (leadExp x - 23) (-149)|
    then (if 0 < x then .posInf else .negInf)
  else .finite ((roundEven (x / 2 ^ max (leadExp x - 23) (-149)) : ℚ)
    * 2 ^ max (leadExp x - 23) (-149))


/-- Outcome of the division of two floats: a number, NaN, or an infinity with its sign. -/
inductive DivResult (α : Type) where
  /-- A number. -/
  | value (v : α)
  /-- Not a number. -/
  | nan
  /-- An infinity, negative or not. -/
  | inf (negative : Bool)
  deriving DecidableEq

/-- The C division `n/d` on floats whose exact values are `n` and `d`, by the rules of
IEEE 754 for a zero divisor: `0/0` is NaN and `n/0` is an infinity with the sign of `n`
(the zero taken as `+0`).  Otherwise the exact quotient, not yet rounded. -/
def ieeeDiv {α : Type} [LinearOrderedField α] (n d : α) : DivResult α :=
  if d = 0 then (if n = 0 then .nan else .inf (decide (n < 0))) else .value (n / d)

/-- The value returned by `QuickStats::slope`, `return numerator/denominator;`, with the
division of floats: NaN or an infinity when the accumulated denominator is zero. -/
def slopeValue {α : Type} [LinearOrderedField α] (x samples : List α) (m : Nat) :
    DivResult α :=
  ieeeDiv (slopeSums x samples m).1 (slopeSums x samples m).2

/-- The float `-a`. -/
def FloatVal.neg : FloatVal → FloatVal
  | .finite a => .finite (-a)
  | .nan => .nan
  | .posInf => .negInf
  | .negInf => .posInf

/-- The float `a + b`: the exact sum of two finite values rounded by `fl32`; NaN when an
operand is NaN or the operands are opposite infinities. -/
def FloatVal.add : FloatVal → FloatVal → FloatVal
  | .finite a, .finite b => fl32 (a + b)
  | .nan, _ => .nan
  | _, .nan => .nan
  | .posInf, .negInf => .nan
  | .negInf, .posInf => .nan
  | .posInf, _ => .posInf
  | _, .posInf => .posInf
  | .negInf, _ => .negInf
  | _, .negInf => .negInf

/-- The float `a / b`: the quotient of two finite values by `ieeeDiv`, rounded by `fl32`. -/
def FloatVal.div : FloatVal → FloatVal → FloatVal
  | .finite a, .finite b =>
    match ieeeDiv a b with
    | .value q => fl32 q
    | .nan => .nan
    | .inf negative => if negative then .negInf else .posInf
  | .nan, _ => .nan
  | _, .nan => .nan
  | .finite _, _ => .finite 0
  | .posInf, .finite b => if b < 0 then .negInf else .posInf
  | .negInf, .finite b => if b < 0 then .posInf else .negInf
  | _, _ => .nan

/-- The comparison `a < b` of C on floats: false when an operand is NaN. -/
def FloatVal.lt : FloatVal → FloatVal → Bool
  | .finite a, .finite b => decide (a < b)
  | .nan, _ => false
  | _, .nan => false
  | .posInf, _ => false
  | _, .negInf => false
  | _, _ => true

/-- The comparison `a <= b` of C on floats: false when an operand is NaN. -/
def FloatVal.le : FloatVal → FloatVal → Bool
  | .finite a, .finite b => decide (a ≤ b)
  | .nan, _ => false
  | _, .nan => false
  | .negInf, _ => true
  | _, .posInf => true
  | _, _ => false

/-- The function `QuickStats::fabs` on floats:
`if(sample<0.f){ return -sample; }else{ return sample; }`. -/
def FloatVal.fabs (sample : FloatVal) : FloatVal :=
  if sample.lt (.finite 0) then sample.neg else sample

/-- The function `QuickStats::median` on finite floats given by their exact values, with
the arithmetic of line 129 done in binary32: `(sorted[(m/2)-1]+sorted[m/2])/2`. -/
def median32 (samples : List ℚ) (m : Nat) : Option FloatVal :=
  (bubbleSort (copySamples samples m) m).bind fun sorted =>
    if bitRead m 0 = 1 then (sorted[m / 2]?).map FloatVal.finite
    else
      match sorted[m / 2 - 1]?, sorted[m / 2]? with
      | some lo, some hi =>
        some (FloatVal.div (FloatVal.add (.finite lo) (.finite hi)) (.finite 2))
      | _, _ => none

end Binary32

section ModeBy

variable {α : Type}

end ModeBy

section ModeByInvariant

variable {α : Type}

end ModeByInvariant

/-! ## Theorems -/

section SortingProofs

variable {α : Type} [LinearOrder α]

theorem swapStep_at (pre : List α) (a b : α) (l : List α) (n : Nat) :
    swapStep (pre ++ a :: b :: l, n) (pre.length + 1)
      = if a > b then (pre ++ b :: a :: l, pre.length + 1) else (pre ++ a :: b :: l, n) := by
  have h1 : (pre ++ a :: b :: l)[pre.length]? = some a := by
    rw [List.getElem?_append_right (le_refl _)]; simp
  have h2 : (pre ++ a :: b :: l)[pre.length + 1]? = some b := by
    rw [List.getElem?_append_right (by omega)]; simp
  have h3 : ((pre ++ a :: b :: l).set (pre.length + 1) a).set pre.length b
      = pre ++ b :: a :: l := by
    rw [List.set_append_right _ _ (by omega), List.set_append_right _ _ (by omega)]
    simp
  simp only [swapStep, Nat.add_sub_cancel, h1, h2, h3]

theorem foldl_swapStep (l : List α) : ∀ (pre : List α) (a : α) (n : Nat),
    (List.range' (pre.length + 1) l.length).foldl swapStep (pre ++ a :: l, n)
      = (pre ++ (bubAux (pre.length + 1) n a l).1, (bubAux (pre.length + 1) n a l).2) := by
  induction l with
  | nil => intro pre a n; simp [bubAux]
  | cons b l ih =>
    intro pre a n
    rw [List.length_cons, List.range'_succ, List.foldl_cons, swapStep_at]
    by_cases h : a > b
    · have := ih (pre ++ [b]) a (pre.length + 1)
      simp only [List.length_append, List.length_singleton, List.append_assoc,
        List.singleton_append] at this
      simp only [h, if_true, bubAux, this]
    · have := ih (pre ++ [a]) b n
      simp only [List.length_append, List.length_singleton, List.append_assoc,
        List.singleton_append] at this
      simp only [h, if_false, bubAux, this]

theorem bubblePass_nil : bubblePass ([] : List α) 0 = ([], 1) := rfl

theorem bubblePass_cons (a : α) (l : List α) :
    bubblePass (a :: l) (a :: l).length = bubAux 1 1 a l := by
  have := foldl_swapStep l [] a 1
  simpa [bubblePass] using this

theorem bubAux_perm (l : List α) : ∀ (p n : Nat) (a : α),
    (bubAux p n a l).1.Perm (a :: l) := by
  induction l with
  | nil => intro p n a; simp [bubAux]
  | cons b l ih =>
    intro p n a
    by_cases h : a > b
    · simp only [bubAux, h, if_true]
      exact ((ih (p + 1) p a).cons b).trans (List.Perm.swap a b l)
    · simp only [bubAux, h, if_false]
      exact (ih (p + 1) n b).cons a

/-- The `newn` left by a pass is the incoming one, or an index visited by the pass. -/
theorem bubAux_newn (l : List α) : ∀ (p n : Nat) (a : α),
    (bubAux p n a l).2 = n ∨ (p ≤ (bubAux p n a l).2 ∧ (bubAux p n a l).2 < p + l.length) := by
  induction l with
  | nil => intro p n a; simp [bubAux]
  | cons b l ih =>
    intro p n a
    by_cases h : a > b
    · simp only [bubAux, h, if_true, List.length_cons]
      rcases ih (p + 1) p a with h1 | h1
      · right; omega
      · right; omega
    · simp only [bubAux, h, if_false, List.length_cons]
      rcases ih (p + 1) n b with h1 | h1
      · left; exact h1
      · right; omega

/-- A pass over an ascending segment swaps nothing. -/
theorem bubAux_sorted (l : List α) : ∀ (p n : Nat) (a : α),
    (a :: l).Sorted (· ≤ ·) → bubAux p n a l = (a :: l, n) := by
  induction l with
  | nil => intro p n a _; simp [bubAux]
  | cons b l ih =>
    intro p n a hs
    have hab : a ≤ b := List.rel_of_sorted_cons hs b (List.mem_cons_self b l)
    have hs2 : (b :: l).Sorted (· ≤ ·) := hs.of_cons
    simp only [bubAux, not_lt.mpr hab, if_false, ih (p + 1) n b hs2]

/-- If `newn` still has a value from before the segment, nothing was swapped. -/
theorem bubAux_unchanged (l : List α) : ∀ (p n : Nat) (a : α), n < p →
    (bubAux p n a l).2 = n → (a :: l).Sorted (· ≤ ·) := by
  induction l with
  | nil => intro p n a _ _; simp
  | cons b l ih =>
    intro p n a hnp hn
    by_cases h : a > b
    · simp only [bubAux, h, if_true] at hn
      rcases bubAux_newn l (p + 1) p a with h1 | h1 <;> omega
    · simp only [bubAux, h, if_false] at hn
      have hs := ih (p + 1) n b (by omega) hn
      refine List.Sorted.cons (not_lt.mp h) hs

/-- After a pass the array is ascending from the cell below the last swap. -/
theorem bubAux_sorted_from (l : List α) : ∀ (p n : Nat) (a : α), n ≤ p →
    ((bubAux p n a l).1.drop ((bubAux p n a l).2 - p)).Sorted (· ≤ ·) := by
  induction l with
  | nil => intro p n a _; simp [bubAux, List.drop]; cases n - p <;> simp
  | cons b l ih =>
    intro p n a hnp
    by_cases h : a > b
    · simp only [bubAux, h, if_true]
      rcases bubAux_newn l (p + 1) p a with h1 | h1
      · have hs := bubAux_unchanged l (p + 1) p a (by omega) h1
        rw [h1, bubAux_sorted l (p + 1) p a hs]
        simpa using List.Sorted.cons (le_of_lt h) hs
      · have := ih (p + 1) p a (by omega)
        have e : (bubAux (p + 1) p a l).2 - p = ((bubAux (p + 1) p a l).2 - (p + 1)) + 1 := by
          omega
        rw [e, List.drop_succ_cons]; exact this
    · simp only [bubAux, h, if_false]
      rcases bubAux_newn l (p + 1) n b with h1 | h1
      · have hs := bubAux_unchanged l (p + 1) n b (by omega) h1
        rw [h1, bubAux_sorted l (p + 1) n b hs]
        have : (a :: b :: l).Sorted (· ≤ ·) := List.Sorted.cons (not_lt.mp h) hs
        exact this.sublist (List.drop_sublist _ _)
      · have := ih (p + 1) n b (by omega)
        have e : (bubAux (p + 1) n b l).2 - p = ((bubAux (p + 1) n b l).2 - (p + 1)) + 1 := by
          omega
        rw [e, List.drop_succ_cons]; exact this

/-- A pass runs through an ascending tail that dominates everything before it without
swapping. -/
theorem bubAux_append (l : List α) : ∀ (p n : Nat) (a : α) (suf : List α),
    suf.Sorted (· ≤ ·) → (∀ x ∈ a :: l, ∀ y ∈ suf, x ≤ y) →
    bubAux p n a (l ++ suf) = ((bubAux p n a l).1 ++ suf, (bubAux p n a l).2) := by
  induction l with
  | nil =>
    intro p n a suf hs hle
    have : (a :: suf).Sorted (· ≤ ·) :=
      List.sorted_cons.mpr ⟨fun y hy => hle a (List.mem_cons_self a []) y hy, hs⟩
    simp [bubAux_sorted suf p n a this, bubAux]
  | cons b l ih =>
    intro p n a suf hs hle
    by_cases h : a > b
    · have hle2 : ∀ x ∈ a :: l, ∀ y ∈ suf, x ≤ y := by
        intro x hx y hy
        rcases List.mem_cons.mp hx with rfl | hx
        · exact hle x (List.mem_cons_self x _) y hy
        · exact hle x (List.mem_cons_of_mem _ (List.mem_cons_of_mem _ hx)) y hy
      rw [List.cons_append]
      simp only [bubAux, h, if_true, ih (p + 1) p a suf hs hle2, List.cons_append]
    · have hle2 : ∀ x ∈ b :: l, ∀ y ∈ suf, x ≤ y := fun x hx y hy =>
        hle x (List.mem_cons_of_mem _ hx) y hy
      rw [List.cons_append]
      simp only [bubAux, h, if_false, ih (p + 1) n b suf hs hle2, List.cons_append]

/-- A pass carries the largest value of the segment to its last cell. -/
theorem bubAux_last (l : List α) : ∀ (p n : Nat) (a : α),
    ∃ init m, (bubAux p n a l).1 = init ++ [m] ∧ ∀ x ∈ a :: l, x ≤ m := by
  induction l with
  | nil => intro p n a; exact ⟨[], a, by simp [bubAux], by simp⟩
  | cons b l ih =>
    intro p n a
    by_cases h : a > b
    · obtain ⟨init, m, e, hm⟩ := ih (p + 1) p a
      refine ⟨b :: init, m, by simp [bubAux, h, e], ?_⟩
      intro x hx
      have ham : a ≤ m := hm a (List.mem_cons_self a l)
      rcases List.mem_cons.mp hx with rfl | hx
      · exact ham
      · rcases List.mem_cons.mp hx with rfl | hx
        · exact le_trans (le_of_lt h) ham
        · exact hm x (List.mem_cons_of_mem _ hx)
    · obtain ⟨init, m, e, hm⟩ := ih (p + 1) n b
      refine ⟨a :: init, m, by simp [bubAux, h, e], ?_⟩
      intro x hx
      rcases List.mem_cons.mp hx with rfl | hx
      · exact le_trans (not_lt.mp h) (hm b (List.mem_cons_self b l))
      · exact hm x hx

theorem bubAux_length (l : List α) (p n : Nat) (a : α) :
    (bubAux p n a l).1.length = l.length + 1 := by
  simpa using (bubAux_perm l p n a).length_eq

theorem bubblePass_perm (A : List α) : (bubblePass A A.length).1.Perm A := by
  cases A with
  | nil => simp [bubblePass_nil]
  | cons a l => rw [bubblePass_cons]; exact bubAux_perm l 1 1 a

/-- A pass that ends with `newn ≤ 1` (no swap, or the last swap at position 1) leaves the
array ascending. -/
theorem bubblePass_sorted_of_le_one (A : List α) (h : (bubblePass A A.length).2 ≤ 1) :
    (bubblePass A A.length).1.Sorted (· ≤ ·) := by
  cases A with
  | nil => simp [bubblePass_nil]
  | cons a l =>
    rw [bubblePass_cons] at h ⊢
    have := bubAux_sorted_from l 1 1 a (le_refl 1)
    have e : (bubAux 1 1 a l).2 - 1 = 0 := by omega
    rwa [e, List.drop_zero] at this

/-- The loop terminates within its budget on `pre ++ suf` when `suf` is an ascending tail
that dominates `pre`, as soon as the budget is at least one pass and at least
`pre.length - 1` passes. -/
theorem bubbleLoop_spec : ∀ (fuel : Nat) (pre suf : List α),
    1 ≤ fuel → pre.length ≤ fuel + 1 →
    suf.Sorted (· ≤ ·) → (∀ x ∈ pre, ∀ y ∈ suf, x ≤ y) →
    ∃ B, bubbleLoop fuel (pre ++ suf) (pre ++ suf).length = some B ∧
      B.Sorted (· ≤ ·) ∧ B.Perm (pre ++ suf) := by
  intro fuel
  induction fuel with
  | zero => intro pre suf h; omega
  | succ f ih =>
    intro pre suf _ hlen hs hle
    by_cases hn : (bubblePass (pre ++ suf) (pre ++ suf).length).2 > 1
    · -- another pass is needed
      cases pre with
      | nil =>
        exfalso
        cases suf with
        | nil => simp [bubblePass_nil] at hn
        | cons y suf =>
          rw [List.nil_append, bubblePass_cons, bubAux_sorted suf 1 1 y hs] at hn
          simp at hn
      | cons a l =>
        have hpass : bubblePass (a :: l ++ suf) (a :: l ++ suf).length
            = ((bubAux 1 1 a l).1 ++ suf, (bubAux 1 1 a l).2) := by
          rw [List.cons_append, bubblePass_cons, bubAux_append l 1 1 a suf hs hle]
        obtain ⟨init, m, e, hm⟩ := bubAux_last l 1 1 a
        have hinitlen : init.length = l.length := by
          have := bubAux_length l 1 1 a
          rw [e] at this; simpa using this
        have hperm : (init ++ [m]).Perm (a :: l) := e ▸ bubAux_perm l 1 1 a
        have hmem : ∀ x ∈ init ++ [m], x ∈ a :: l := fun x hx => hperm.subset hx
        rw [hpass] at hn
        have hl2 : 2 ≤ l.length := by
          rcases bubAux_newn l 1 1 a with h1 | h1
          · simp only [h1] at hn; omega
          · simp only at hn; omega
        have hs2 : (m :: suf).Sorted (· ≤ ·) :=
          List.sorted_cons.mpr ⟨fun y hy => hle m (hmem m (by simp)) y hy, hs⟩
        have hle2 : ∀ x ∈ init, ∀ y ∈ m :: suf, x ≤ y := by
          intro x hx y hy
          have hx2 : x ∈ a :: l := hmem x (List.mem_append_left _ hx)
          rcases List.mem_cons.mp hy with rfl | hy
          · exact hm x hx2
          · exact hle x hx2 y hy
        simp only [List.length_cons] at hlen
        obtain ⟨B, hB, hBs, hBp⟩ := ih init (m :: suf) (by omega) (by omega) hs2 hle2
        have hlen2 : (init ++ m :: suf).length = (a :: l ++ suf).length := by
          simp [hinitlen]; omega
        refine ⟨B, ?_, hBs, ?_⟩
        · have hn2 : (bubblePass (a :: l ++ suf) (a :: l ++ suf).length).2 > 1 := by
            rw [hpass]; exact hn
          rw [bubbleLoop, if_pos hn2, hpass, e, ← hlen2]
          simpa using hB
        · refine hBp.trans ?_
          have : (init ++ [m] ++ suf).Perm (a :: l ++ suf) := hperm.append_right suf
          simpa using this
    · -- the loop exits after this pass
      refine ⟨(bubblePass (pre ++ suf) (pre ++ suf).length).1, ?_, ?_, bubblePass_perm _⟩
      · rw [bubbleLoop, if_neg hn]
      · exact bubblePass_sorted_of_le_one _ (by omega)

/-- The sort returns, and returns an ascending rearrangement of its input. -/
theorem bubbleSort_spec (A : List α) :
    ∃ B, bubbleSort A A.length = some B ∧ B.Sorted (· ≤ ·) ∧ B.Perm A := by
  have := bubbleLoop_spec (A.length + 1) A [] (by omega) (by omega)
    (List.sorted_nil) (by simp)
  simpa [bubbleSort] using this

theorem copySamples_length {β : Type} [Zero β] (samples : List β) :
    copySamples samples samples.length = samples := by
  apply List.ext_getElem
  · simp [copySamples]
  · intro i h1 h2
    simp [copySamples, List.getElem?_eq_getElem h2]

end SortingProofs

section OrderStatistics

variable {α : Type} [LinearOrder α]

theorem sorted_getElem_le {B : List α} (hs : B.Sorted (· ≤ ·)) {i j : Nat} (hij : i ≤ j)
    (hj : j < B.length) : B[i] ≤ B[j] := by
  rcases Nat.eq_or_lt_of_le hij with rfl | hlt
  · exact le_refl _
  · exact (List.pairwise_iff_getElem.mp hs) i j (by omega) hj hlt

/-- The sorted copy made by `minimum`, `maximum`, `median` and `mode`. -/
theorem sortedCopy_spec [Zero α] (s : List α) :
    ∃ B, bubbleSort (copySamples s s.length) s.length = some B ∧ B.Sorted (· ≤ ·) ∧
      B.Perm s ∧ B.length = s.length := by
  obtain ⟨B, hB, hs, hp⟩ := bubbleSort_spec s
  exact ⟨B, by rw [copySamples_length]; exact hB, hs, hp, hp.length_eq⟩

/-- Claim C1. `bubbleSort(A, len)` returns, its result is a rearrangement of `A` in
non-decreasing order (every cell is at most the next one), and a pass that ends with
`newn = 1` (in particular one whose last swap was at position 1) leaves the array in
non-decreasing order and ends the loop. -/
theorem bubbleSort_sorts (A : List α) :
    (∃ B, bubbleSort A A.length = some B ∧ B.Perm A ∧ B.Sorted (· ≤ ·) ∧
      ∀ i, (h : i + 1 < B.length) → B[i] ≤ B[i + 1]) ∧
    ((bubblePass A A.length).2 = 1 →
      (bubblePass A A.length).1.Sorted (· ≤ ·) ∧
      ∀ fuel, bubbleLoop (fuel + 1) A A.length = some (bubblePass A A.length).1) := by
  constructor
  · obtain ⟨B, hB, hs, hp⟩ := bubbleSort_spec A
    exact ⟨B, hB, hp, hs, fun i h => sorted_getElem_le hs (Nat.le_succ i) h⟩
  · intro h1
    refine ⟨bubblePass_sorted_of_le_one A (le_of_eq h1), fun fuel => ?_⟩
    rw [bubbleLoop, if_neg (by omega)]

theorem bubbleSort_sorts_witness :
    (bubblePass [2, 1, 3] [2, 1, 3].length).2 = 1 ∧
    (bubblePass [2, 1, 3] [2, 1, 3].length).1.Sorted (· ≤ ·) ∧
    bubbleLoop 1 [2, 1, 3] [2, 1, 3].length = some [1, 2, 3] :=
  ⟨by decide, ((bubbleSort_sorts [2, 1, 3]).2 (by decide)).1,
    ((bubbleSort_sorts [2, 1, 3]).2 (by decide)).2 0⟩

/-- Claim C2. On a non-empty sequence `minimum` returns an element that is at most every
element, and `maximum` returns an element that is at least every element. -/
theorem minimum_maximum_spec [Zero α] (s : List α) (hne : s ≠ []) :
    (∃ a, minimum s s.length = some a ∧ a ∈ s ∧ ∀ x ∈ s, a ≤ x) ∧
    (∃ b, maximum s s.length = some b ∧ b ∈ s ∧ ∀ x ∈ s, x ≤ b) := by
  obtain ⟨B, hB, hs, hp, hlen⟩ := sortedCopy_spec s
  have hpos : 0 < B.length := by
    rw [hlen]; exact List.length_pos.mpr hne
  constructor
  · refine ⟨B[0], ?_, hp.subset (List.getElem_mem _), ?_⟩
    · simp [minimum, hB, List.getElem?_eq_getElem hpos]
    · intro x hx
      obtain ⟨j, hj, rfl⟩ := List.getElem_of_mem (hp.symm.subset hx)
      exact sorted_getElem_le hs (Nat.zero_le j) hj
  · have hlast : s.length - 1 < B.length := by omega
    refine ⟨B[s.length - 1], ?_, hp.subset (List.getElem_mem _), ?_⟩
    · simp [maximum, hB, List.getElem?_eq_getElem hlast]
    · intro x hx
      obtain ⟨j, hj, rfl⟩ := List.getElem_of_mem (hp.symm.subset hx)
      exact sorted_getElem_le hs (by omega) hlast

theorem minimum_maximum_spec_witness :
    ([3, 1, 2] : List Nat) ≠ [] ∧
    (∃ a, minimum [3, 1, 2] 3 = some a ∧ a ∈ [3, 1, 2] ∧ ∀ x ∈ [3, 1, 2], a ≤ x) ∧
    (∃ b, maximum [3, 1, 2] 3 = some b ∧ b ∈ [3, 1, 2] ∧ ∀ x ∈ [3, 1, 2], x ≤ b) :=
  ⟨by decide, minimum_maximum_spec [3, 1, 2] (by decide)⟩

end OrderStatistics

section MedianProofs

variable {α : Type} [LinearOrderedField α]

theorem bitRead_zero (m : Nat) : bitRead m 0 = m % 2 := by
  simp [bitRead, Nat.and_one_is_mod]

/-- What `median` returns, in terms of the sorted copy `B`. -/
theorem median_of_sorted (s B : List α) (hne : s ≠ [])
    (hB : bubbleSort (copySamples s s.length) s.length = some B) (hlen : B.length = s.length) :
    ∃ (h1 : s.length / 2 - 1 < B.length) (h2 : s.length / 2 < B.length),
      median s s.length =
        some (if s.length % 2 = 1 then B[s.length / 2]
          else (B[s.length / 2 - 1] + B[s.length / 2]) / 2) := by
  have hpos : 0 < s.length := List.length_pos.mpr hne
  have h2 : s.length / 2 < B.length := by omega
  have h1 : s.length / 2 - 1 < B.length := by omega
  refine ⟨h1, h2, ?_⟩
  by_cases hodd : s.length % 2 = 1
  · simp [median, hB, bitRead_zero, hodd, List.getElem?_eq_getElem h2]
  · simp [median, hB, bitRead_zero, hodd, List.getElem?_eq_getElem h2,
      List.getElem?_eq_getElem h1]

/-- Over exact arithmetic, on a non-empty sequence `minimum(s, m) ≤ median(s, m) ≤
maximum(s, m)`, all three being returned.  This is the exact-arithmetic part of claim C4;
`median_between` adds the binary32 part. -/
theorem minimum_le_median_le_maximum (s : List α) (hne : s ≠ []) :
    ∃ lo med hi, minimum s s.length = some lo ∧ median s s.length = some med ∧
      maximum s s.length = some hi ∧ lo ≤ med ∧ med ≤ hi := by
  obtain ⟨B, hB, hs, hp, hlen⟩ := sortedCopy_spec s
  obtain ⟨h1, h2, hmed⟩ := median_of_sorted s B hne hB hlen
  have hpos : 0 < B.length := by omega
  have hlast : s.length - 1 < B.length := by omega
  refine ⟨B[0], _, B[s.length - 1], ?_, hmed, ?_, ?_, ?_⟩
  · simp [minimum, hB, List.getElem?_eq_getElem hpos]
  · simp [maximum, hB, List.getElem?_eq_getElem hlast]
  · have a1 : B[0] ≤ B[s.length / 2 - 1] := sorted_getElem_le hs (Nat.zero_le _) h1
    have a2 : B[0] ≤ B[s.length / 2] := sorted_getElem_le hs (Nat.zero_le _) h2
    split_ifs
    · exact a2
    · rw [le_div_iff₀ (by norm_num : (0 : α) < 2)]; linarith
  · have a1 : B[s.length / 2 - 1] ≤ B[s.length - 1] := sorted_getElem_le hs (by omega) hlast
    have a2 : B[s.length / 2] ≤ B[s.length - 1] := sorted_getElem_le hs (by omega) hlast
    split_ifs
    · exact a2
    · rw [div_le_iff₀ (by norm_num : (0 : α) < 2)]; linarith

theorem minimum_le_median_le_maximum_witness :
    ([4, 1, 3, 2] : List ℚ) ≠ [] ∧
    ∃ lo med hi, minimum ([4, 1, 3, 2] : List ℚ) 4 = some lo ∧
      median ([4, 1, 3, 2] : List ℚ) 4 = some med ∧
      maximum ([4, 1, 3, 2] : List ℚ) 4 = some hi ∧ lo ≤ med ∧ med ≤ hi :=
  ⟨by simp, minimum_le_median_le_maximum [4, 1, 3, 2] (by simp)⟩

end MedianProofs

section ModeProofs

variable {α : Type} [LinearOrderedField α]

theorem fabs_eq_abs (a : α) : fabs a = |a| := by
  unfold fabs
  split_ifs with h
  · exact (abs_of_neg h).symm
  · exact (abs_of_nonneg (not_lt.mp h)).symm

/-- The `else` branch of the scan body: `sorted[i]` opens a new bucket. -/
theorem modeStep_far (B : List α) (epsilon : α) (st : ModeState α) (i : Nat)
    (hi : i < B.length) (hp : st.p < B.length) (hfar : ¬ fabs (B[i] - B[st.p]) < epsilon)
    (hu : st.p + 1 < st.unique.length) (huc : st.p + 1 < st.uniquect.length) :
    modeStep B epsilon st i = some { st with
      p := st.p + 1
      unique := st.unique.set (st.p + 1) (some B[i])
      uniquect := st.uniquect.set (st.p + 1) (some 1) } := by
  simp only [modeStep, List.getElem?_eq_getElem hi, List.getElem?_eq_getElem hp, if_neg hfar]
  rw [if_pos ⟨hu, huc⟩]

/-- The scan loop of `mode`, stopped after the indices `1, …, k`. -/
theorem modeScan_no_repeat (B : List α) (epsilon : α) (st0 : ModeState α)
    (hst0 : st0.p = 0 ∧ st0.maxp = 0 ∧ st0.maxidx = 0 ∧ st0.unique.length = B.length ∧
      st0.uniquect.length = B.length)
    (hB : B.Pairwise fun a b => ¬ fabs (b - a) < epsilon) :
    ∀ k, k + 1 ≤ B.length →
      ∃ st, (List.range' 1 k).foldl
          (fun acc i => acc.bind fun s => modeStep B epsilon s i) (some st0) = some st ∧
        st.p = k ∧ st.maxp = 0 ∧ st.maxidx = 0 ∧ st.unique.length = B.length ∧
        st.uniquect.length = B.length := by
  intro k
  induction k with
  | zero => intro _; exact ⟨st0, rfl, hst0⟩
  | succ k ih =>
    intro hk
    obtain ⟨st, hst, hp, hmaxp, hmaxidx, hu, huc⟩ := ih (by omega)
    have hi : 1 + k < B.length := by omega
    have hpk : st.p < B.length := by omega
    have hfar : ¬ fabs (B[1 + k] - B[st.p]) < epsilon :=
      (List.pairwise_iff_getElem.mp hB) st.p (1 + k) hpk hi (by omega)
    rw [List.range'_concat, List.foldl_append, hst, one_mul]
    simp only [List.foldl_cons, List.foldl_nil, Option.some_bind]
    rw [modeStep_far B epsilon st (1 + k) hi hpk hfar (by omega) (by omega)]
    exact ⟨_, rfl, by simp [hp], hmaxp, hmaxidx, by simp [hu], by simp [huc]⟩

/-- Claim C5, evaluated on the code. On `[1,1,2,2,2]` with `epsilon = 0.01` the elements
are equal or at least `epsilon` apart and a value repeats, yet `mode` returns `1`, which
occurs twice, while `2` occurs three times: the scan compares `sorted[i]` with
`sorted[p]`, the cell at the bucket counter, not with the bucket value `unique[p]`. -/
theorem mode_misses_most_frequent :
    (0 : ℚ) < 1 / 100 ∧
    ([1, 1, 2, 2, 2] : List ℚ).Pairwise (fun a b => a = b ∨ ¬ fabs (b - a) < 1 / 100) ∧
    mode ([1, 1, 2, 2, 2] : List ℚ) 5 (1 / 100) = some 1 ∧
    ([1, 1, 2, 2, 2] : List ℚ).count 1 = 2 ∧ ([1, 1, 2, 2, 2] : List ℚ).count 2 = 3 ∧
    mode ([1, 1, 2, 3] : List ℚ) 4 (1 / 100) = some 1 := by
  refine ⟨by norm_num, by decide!, by decide!, by decide!, by decide!, by decide!⟩

/-- Claim C6. When no two elements at distinct positions of a non-empty `s` are less than
`epsilon` apart, `mode(s, m, epsilon)` returns the sentinel `0.0`; in particular
`mode([1,2,3], 0.01) = 0.0`. -/
theorem mode_no_repeat (s : List α) (epsilon : α) (hne : s ≠ [])
    (hfar : s.Pairwise fun a b => ¬ fabs (a - b) < epsilon) :
    mode s s.length epsilon = some 0 := by
  obtain ⟨B, hB, hs, hp, hlen⟩ := sortedCopy_spec s
  have hpos : 0 < B.length := by rw [hlen]; exact List.length_pos.mpr hne
  have hsymm : ∀ a b : α, ¬ fabs (a - b) < epsilon → ¬ fabs (b - a) < epsilon := by
    intro a b h
    rwa [fabs_eq_abs, abs_sub_comm, ← fabs_eq_abs]
  have hfarB : B.Pairwise fun a b => ¬ fabs (b - a) < epsilon := by
    have h1 : B.Pairwise fun a b => ¬ fabs (a - b) < epsilon :=
      (hp.pairwise_iff (fun {a b} h => hsymm a b h)).mpr hfar
    exact h1.imp (fun {a b} h => hsymm a b h)
  have hinit : modeInit B s.length = some
      { unique := (List.replicate s.length none).set 0 (some B[0])
        uniquect := (List.replicate s.length none).set 0 (some 1)
        p := 0, maxp := 0, maxidx := 0 } := by
    simp [modeInit, List.getElem?_eq_getElem hpos, ← hlen, hpos]
  obtain ⟨st, hst, -, hmaxp, -, -, -⟩ := modeScan_no_repeat B epsilon
    { unique := (List.replicate s.length none).set 0 (some B[0])
      uniquect := (List.replicate s.length none).set 0 (some 1)
      p := 0, maxp := 0, maxidx := 0 }
    ⟨rfl, rfl, rfl, by simp [hlen], by simp [hlen]⟩ hfarB (B.length - 1) (by omega)
  rw [hlen] at hst
  simp only [mode, hB, Option.some_bind, hinit, modeScan, hst, hmaxp]
  simp

theorem mode_no_repeat_witness :
    ([1, 2, 3] : List ℚ) ≠ [] ∧
    ([1, 2, 3] : List ℚ).Pairwise (fun a b => ¬ fabs (a - b) < 1 / 100) ∧
    mode ([1, 2, 3] : List ℚ) 3 (1 / 100) = some 0 :=
  ⟨by simp, by decide!, mode_no_repeat [1, 2, 3] (1 / 100) (by simp) (by decide!)⟩

end ModeProofs

section AverageProofs

variable {α : Type} [LinearOrderedField α]

theorem averageAcc_zero (s : List α) : averageAcc s 0 = 0 := rfl

theorem averageAcc_succ (s : List α) (k : Nat) :
    averageAcc s (k + 1)
      = averageAcc s k + (s.getD k 0 - averageAcc s k) / ((k + 1 : Nat) : α) := by
  simp [averageAcc, List.range_succ, List.foldl_append]

/-- Loop invariant of `average`: `k` times the accumulator is the sum of the first `k`
samples. -/
theorem averageAcc_mul (s : List α) : ∀ k, k ≤ s.length →
    (k : α) * averageAcc s k = (s.take k).sum := by
  intro k
  induction k with
  | zero => intro _; simp [averageAcc_zero]
  | succ k ih =>
    intro hk
    have hk2 : k < s.length := by omega
    have hne : ((k : α) + 1) ≠ 0 := by positivity
    rw [averageAcc_succ, List.sum_take_succ s k hk2, ← ih (by omega),
      List.getD_eq_getElem s 0 hk2]
    push_cast
    field_simp
    ring

theorem averageAcc_eq (s : List α) (k : Nat) (hk : k ≤ s.length) :
    averageAcc s k = (s.take k).sum / (k : α) := by
  rcases Nat.eq_zero_or_pos k with rfl | hpos
  · simp [averageAcc_zero]
  · have hne : (k : α) ≠ 0 := by positivity
    rw [eq_div_iff hne, mul_comm]
    exact averageAcc_mul s k hk

theorem average_eq (s : List α) : average s s.length = s.sum / (s.length : α) := by
  rw [average, averageAcc_eq s s.length (le_refl _), List.take_length]

/-- Claim C7. The accumulator of `average` starts at `0`, follows
`avg ← avg + (s[i] - avg)/(i+1)`, equals the mean of the first `k` samples after `k ≥ 1`
iterations, and `average(s, m)` is `(s[0] + … + s[m-1]) / m`. -/
theorem average_eq_mean (s : List α) (_hm : 1 ≤ s.length) :
    averageAcc s 0 = 0 ∧
    (∀ i, (h : i < s.length) →
      averageAcc s (i + 1) = averageAcc s i + (s[i] - averageAcc s i) / ((i : α) + 1)) ∧
    (∀ k, 1 ≤ k → k ≤ s.length → averageAcc s k = (s.take k).sum / (k : α)) ∧
    average s s.length = s.sum / (s.length : α) := by
  refine ⟨averageAcc_zero s, ?_, fun k _ hk => averageAcc_eq s k hk, average_eq s⟩
  intro i h
  rw [averageAcc_succ, List.getD_eq_getElem s 0 h]
  push_cast
  rfl

theorem average_eq_mean_witness :
    1 ≤ ([1, 2, 3, 6] : List ℚ).length ∧ average ([1, 2, 3, 6] : List ℚ) 4 = 3 := by
  refine ⟨by simp, ?_⟩
  have h := (average_eq_mean ([1, 2, 3, 6] : List ℚ) (by simp)).2.2.2
  simp only [List.length_cons, List.length_nil] at h
  rw [h]
  norm_num

/-- Claim C8. `average` gives the same value on every rearrangement of the samples. -/
theorem average_perm (s t : List α) (h : t.Perm s) :
    average t t.length = average s s.length := by
  rw [average_eq, average_eq, h.sum_eq, h.length_eq]

theorem average_perm_witness :
    ([3, 1, 2] : List ℚ).Perm [1, 2, 3] ∧
    average ([3, 1, 2] : List ℚ) 3 = average ([1, 2, 3] : List ℚ) 3 :=
  ⟨by decide, average_perm [1, 2, 3] [3, 1, 2] (by decide)⟩

theorem foldl_range_add (f : Nat → α) (k : Nat) :
    (List.range k).foldl (fun t i => t + f i) 0 = ∑ i ∈ Finset.range k, f i := by
  induction k with
  | zero => simp
  | succ k ih => rw [List.range_succ, List.foldl_append, ih, Finset.sum_range_succ]; rfl

theorem sum_range_getD (g : α → α) (s : List α) :
    ∑ i ∈ Finset.range s.length, g (s.getD i 0) = (s.map g).sum := by
  induction s with
  | nil => simp
  | cons a l ih =>
    rw [List.length_cons, Finset.sum_range_succ', List.map_cons, List.sum_cons, ← ih, add_comm]
    simp

theorem total2_eq (s : List α) (avg : α) :
    total2 s s.length avg = (s.map fun x => (x - avg) ^ 2).sum := by
  rw [total2, foldl_range_add (fun i => (s.getD i 0 - avg) ^ 2),
    sum_range_getD (fun x => (x - avg) ^ 2)]

end AverageProofs

section DispersionProofs

/-- Claim C9. With the real square root, `stdev(s, m)` on `m ≥ 2` samples is non-negative
and its square is the sum of the squared deviations from the mean divided by `m - 1`;
on `[2,4,4,4,5,5,7,9]` that quotient is `32/7`. -/
theorem stdev_spec (s : List ℝ) (hm : 2 ≤ s.length) :
    0 ≤ stdev Real.sqrt s s.length ∧
    stdev Real.sqrt s s.length ^ 2
      = (s.map fun x => (x - s.sum / (s.length : ℝ)) ^ 2).sum / ((s.length : ℝ) - 1) ∧
    total2 ([2, 4, 4, 4, 5, 5, 7, 9] : List ℚ) 8 (average [2, 4, 4, 4, 5, 5, 7, 9] 8) / (8 - 1)
      = 32 / 7 := by
  refine ⟨Real.sqrt_nonneg _, ?_, by decide!⟩
  have hpos : (0 : ℝ) < (s.length : ℝ) - 1 := by
    have : (2 : ℝ) ≤ (s.length : ℝ) := by exact_mod_cast hm
    linarith
  have hnn : 0 ≤ (s.map fun x => (x - s.sum / (s.length : ℝ)) ^ 2).sum :=
    List.sum_nonneg (by
      intro y hy
      obtain ⟨x, -, rfl⟩ := List.mem_map.mp hy
      exact sq_nonneg _)
  rw [stdev, average_eq, total2_eq, Real.sq_sqrt (div_nonneg hnn hpos.le)]

theorem stdev_spec_witness :
    2 ≤ ([2, 4, 4, 4, 5, 5, 7, 9] : List ℝ).length ∧
    0 ≤ stdev Real.sqrt ([2, 4, 4, 4, 5, 5, 7, 9] : List ℝ) 8 ∧
    stdev Real.sqrt ([2, 4, 4, 4, 5, 5, 7, 9] : List ℝ) 8 ^ 2 = 32 / 7 := by
  have h := stdev_spec [2, 4, 4, 4, 5, 5, 7, 9] (by simp)
  refine ⟨by simp, h.1, ?_⟩
  have h2 := h.2.1
  simp only [List.length_cons, List.length_nil] at h2
  rw [h2]
  norm_num

end DispersionProofs

section RegressionProofs

variable {α : Type} [LinearOrderedField α]

/-- Loop invariant of `slope`: after the indices `0, …, k-1` the two accumulators hold the
sums over all those indices, the skipped ones included. -/
theorem foldl_slopeStep (x y : List α) (xavg yavg : α) (k : Nat) :
    (List.range k).foldl (slopeStep x y xavg yavg) (0, 0)
      = (∑ i ∈ Finset.range k, (x.getD i 0 - xavg) * (y.getD i 0 - yavg),
         ∑ i ∈ Finset.range k, (x.getD i 0 - xavg) ^ 2) := by
  induction k with
  | zero => simp
  | succ k ih =>
    rw [List.range_succ, List.foldl_append, ih, Finset.sum_range_succ, Finset.sum_range_succ]
    simp only [List.foldl_cons, List.foldl_nil, slopeStep]
    by_cases h : x.getD k 0 - xavg = 0
    · rw [if_neg (not_not.mpr h), h, zero_mul, add_zero, zero_pow two_ne_zero, add_zero]
    · rw [if_pos h, sq]

theorem slopeSums_eq (x y : List α) (hlen : y.length = x.length) :
    slopeSums x y x.length = (olsNumerator x y, olsDenominator x) := by
  have hy : average y x.length = y.sum / (y.length : α) := by
    rw [← hlen]; exact average_eq y
  rw [slopeSums, foldl_slopeStep, average_eq, hy, olsNumerator, olsDenominator]

/-- The denominator vanishes only when every `x[i]` is the mean. -/
theorem olsDenominator_eq_zero (x : List α) (h : olsDenominator x = 0) :
    ∀ a ∈ x, a = x.sum / (x.length : α) := by
  intro a ha
  obtain ⟨i, hi, rfl⟩ := List.getElem_of_mem ha
  have hz := (Finset.sum_eq_zero_iff_of_nonneg (fun j _ => sq_nonneg _)).mp h i
    (Finset.mem_range.mpr hi)
  rw [List.getD_eq_getElem x 0 hi] at hz
  exact sub_eq_zero.mp ((pow_eq_zero_iff two_ne_zero).mp hz)

/-- Claim C10. For `x`, `y` of the same length `m` with two different values in `x`, the
numerator and the denominator accumulated by `slope` are the sums over all indices, the
denominator is not zero, and `slope(x, y, m)` is the ordinary least-squares slope. -/
theorem slope_eq_olsSlope (x y : List α) (hlen : y.length = x.length)
    (hx : ∃ a ∈ x, ∃ b ∈ x, a ≠ b) :
    (slopeSums x y x.length).1 = olsNumerator x y ∧
    (slopeSums x y x.length).2 = olsDenominator x ∧
    olsDenominator x ≠ 0 ∧
    slope x y x.length = olsSlope x y := by
  refine ⟨by rw [slopeSums_eq x y hlen], by rw [slopeSums_eq x y hlen], ?_, ?_⟩
  · intro h0
    obtain ⟨a, ha, b, hb, hab⟩ := hx
    exact hab ((olsDenominator_eq_zero x h0 a ha).trans (olsDenominator_eq_zero x h0 b hb).symm)
  · rw [slope, slopeSums_eq x y hlen, olsSlope]

theorem slope_eq_olsSlope_witness :
    ([3, 5, 7, 9] : List ℚ).length = ([1, 2, 3, 4] : List ℚ).length ∧
    (∃ a ∈ ([1, 2, 3, 4] : List ℚ), ∃ b ∈ ([1, 2, 3, 4] : List ℚ), a ≠ b) ∧
    (slopeSums ([1, 2, 3, 4] : List ℚ) [3, 5, 7, 9] 4).2 = olsDenominator [1, 2, 3, 4] ∧
    slope ([1, 2, 3, 4] : List ℚ) [3, 5, 7, 9] 4 = olsSlope [1, 2, 3, 4] [3, 5, 7, 9] :=
  have hx : ∃ a ∈ ([1, 2, 3, 4] : List ℚ), ∃ b ∈ ([1, 2, 3, 4] : List ℚ), a ≠ b :=
    ⟨1, by simp, 2, by simp, by norm_num⟩
  ⟨rfl, hx, (slope_eq_olsSlope [1, 2, 3, 4] [3, 5, 7, 9] rfl hx).2.1,
    (slope_eq_olsSlope [1, 2, 3, 4] [3, 5, 7, 9] rfl hx).2.2.2⟩

end RegressionProofs

section LinearFitProofs

variable {α : Type} [LinearOrderedField α]

theorem olsDenominator_ne_zero (x : List α) (hx : ∃ u ∈ x, ∃ v ∈ x, u ≠ v) :
    olsDenominator x ≠ 0 := by
  intro h0
  obtain ⟨u, hu, v, hv, huv⟩ := hx
  exact huv ((olsDenominator_eq_zero x h0 u hu).trans (olsDenominator_eq_zero x h0 v hv).symm)

theorem sum_eq_sum_range_getD (s : List α) :
    s.sum = ∑ i ∈ Finset.range s.length, s.getD i 0 := by
  have := sum_range_getD (fun v => v) s
  simpa using this.symm

/-- The mean of `y` when `y[i] = a * x[i] + b` at every index. -/
theorem mean_of_linear (x y : List α) (a b : α) (hlen : y.length = x.length)
    (hpos : 0 < x.length)
    (hy : ∀ i, i < x.length → y.getD i 0 = a * x.getD i 0 + b) :
    y.sum / (y.length : α) = a * (x.sum / (x.length : α)) + b := by
  have hm : (x.length : α) ≠ 0 := by exact_mod_cast (Nat.pos_iff_ne_zero.mp hpos)
  have hsum : y.sum = a * x.sum + (x.length : α) * b := by
    rw [sum_eq_sum_range_getD y, hlen, sum_eq_sum_range_getD x,
      Finset.sum_congr rfl (fun i hi => hy i (Finset.mem_range.mp hi)),
      Finset.sum_add_distrib, ← Finset.mul_sum, Finset.sum_const, Finset.card_range,
      nsmul_eq_mul]
  rw [hlen, hsum]
  field_simp
  ring

/-- Claim C11. When `y[i] = a * x[i] + b` at every index and `x` (of length `m ≥ 2`) holds
two different values, `slope(x, y, m) = a` and `intercept(x, y, m) = b`. -/
theorem slope_intercept_of_linear (x y : List α) (a b : α) (_hm : 2 ≤ x.length)
    (hlen : y.length = x.length) (hx : ∃ u ∈ x, ∃ v ∈ x, u ≠ v)
    (hy : ∀ i, i < x.length → y.getD i 0 = a * x.getD i 0 + b) :
    slope x y x.length = a ∧ intercept x y x.length = b := by
  have hmean := mean_of_linear x y a b hlen (by omega) hy
  have hden := olsDenominator_ne_zero x hx
  have hnum : olsNumerator x y = a * olsDenominator x := by
    rw [olsNumerator, olsDenominator, Finset.mul_sum]
    refine Finset.sum_congr rfl (fun i hi => ?_)
    rw [hy i (Finset.mem_range.mp hi), hmean]
    ring
  have hslope : slope x y x.length = a := by
    rw [slope, slopeSums_eq x y hlen, hnum, mul_div_assoc, div_self hden, mul_one]
  refine ⟨hslope, ?_⟩
  have hyavg : average y x.length = y.sum / (y.length : α) := by
    rw [← hlen]; exact average_eq y
  rw [intercept, hslope, hyavg, average_eq, hmean]
  ring

theorem slope_intercept_of_linear_witness :
    slope ([1, 2, 3, 4] : List ℚ) [2, 4, 6, 8] 4 = 2 ∧
    intercept ([1, 2, 3, 4] : List ℚ) [2, 4, 6, 8] 4 = 0 :=
  slope_intercept_of_linear [1, 2, 3, 4] [2, 4, 6, 8] 2 0 (by decide) rfl
    ⟨1, by simp, 2, by simp, by norm_num⟩
    (by
      intro i hi
      have hi4 : i < 4 := hi
      interval_cases i <;> norm_num)

/-- With a non-zero accumulated denominator the value returned by `slope` is the number
`slope`. -/
theorem slopeValue_of_ne_zero (x y : List α) (m : Nat) (h : (slopeSums x y m).2 ≠ 0) :
    slopeValue x y m = DivResult.value (slope x y m) := by
  rw [slopeValue, ieeeDiv, if_neg h, slope]

/-- Claim C16. When all `x[i]` are equal (`m ≥ 1`, `y` of the same length) the guard of
`slope` skips every index, the accumulated numerator and denominator are both `0` and
the division of `slope` is `0/0`, whose value is NaN; whenever the accumulated denominator
is `0`, all `x[i]` are equal; and with a non-zero denominator the division returns a
number. -/
theorem slope_degenerate (x y : List α) (hlen : y.length = x.length) :
    (1 ≤ x.length → (∀ u ∈ x, ∀ v ∈ x, u = v) →
      (∀ i, i < x.length → ∀ st,
        slopeStep x y (average x x.length) (average y x.length) st i = st) ∧
      slopeSums x y x.length = (0, 0) ∧
      slopeValue x y x.length = DivResult.nan) ∧
    ((slopeSums x y x.length).2 = 0 → ∀ u ∈ x, ∀ v ∈ x, u = v) ∧
    ((slopeSums x y x.length).2 ≠ 0 →
      slopeValue x y x.length = DivResult.value (slope x y x.length)) := by
  refine ⟨?_, ?_, slopeValue_of_ne_zero x y x.length⟩
  · intro hm hall
    have hm0 : (x.length : α) ≠ 0 := by
      have : 0 < x.length := hm
      exact_mod_cast (Nat.pos_iff_ne_zero.mp this)
    have h0 : 0 < x.length := hm
    have hsum : x.sum = x.length • x[0] :=
      List.sum_eq_card_nsmul x x[0] (fun u hu => hall u hu x[0] (List.getElem_mem _))
    have havg : average x x.length = x[0] := by
      rw [average_eq, hsum, nsmul_eq_mul, mul_div_assoc, mul_comm, div_mul_cancel₀ _ hm0]
    have hskip : ∀ i, i < x.length → x.getD i 0 - average x x.length = 0 := by
      intro i hi
      rw [havg, List.getD_eq_getElem x 0 hi]
      exact sub_eq_zero.mpr (hall _ (List.getElem_mem _) _ (List.getElem_mem _))
    have hsums : slopeSums x y x.length = (0, 0) := by
      rw [slopeSums, foldl_slopeStep]
      rw [Finset.sum_eq_zero (fun i hi => by rw [hskip i (Finset.mem_range.mp hi), zero_mul]),
        Finset.sum_eq_zero (fun i hi => by
          rw [hskip i (Finset.mem_range.mp hi), zero_pow two_ne_zero])]
    refine ⟨fun i hi st => ?_, hsums, by rw [slopeValue, hsums]; simp [ieeeDiv]⟩
    rw [slopeStep, if_neg (not_not.mpr (hskip i hi))]
  · intro hden u hu v hv
    rw [slopeSums_eq x y hlen] at hden
    exact (olsDenominator_eq_zero x hden u hu).trans (olsDenominator_eq_zero x hden v hv).symm

theorem slope_degenerate_witness :
    slopeSums ([5, 5, 5] : List ℚ) [1, 2, 4] 3 = (0, 0) ∧
    slopeValue ([5, 5, 5] : List ℚ) [1, 2, 4] 3 = DivResult.nan :=
  ((slope_degenerate ([5, 5, 5] : List ℚ) [1, 2, 4] rfl).1 (by decide)
    (by
      intro u hu v hv
      simp only [List.mem_cons, List.mem_singleton, List.not_mem_nil, or_false, or_self] at hu hv
      rw [hu, hv])).2

end LinearFitProofs

section ConstantSequenceProofs

/-- Claim C14. On a constant sequence of `m ≥ 2` samples equal to `c ≠ 0`, with the real
square root, the average is `c` (so it is not zero), the standard deviation is `0` and
`CV(s, m) = 0`. -/
theorem CV_const (s : List ℝ) (c : ℝ) (hm : 2 ≤ s.length) (hc : c ≠ 0)
    (hall : ∀ v ∈ s, v = c) :
    average s s.length = c ∧ average s s.length ≠ 0 ∧ stdev Real.sqrt s s.length = 0 ∧
    CV Real.sqrt s s.length = 0 := by
  have hm0 : (s.length : ℝ) ≠ 0 := by
    have : 0 < s.length := by omega
    exact_mod_cast (Nat.pos_iff_ne_zero.mp this)
  have havg : average s s.length = c := by
    rw [average_eq, List.sum_eq_card_nsmul s c hall, nsmul_eq_mul, mul_div_assoc, mul_comm,
      div_mul_cancel₀ _ hm0]
  have hsd : stdev Real.sqrt s s.length = 0 := by
    have ht : total2 s s.length c = 0 := by
      rw [total2_eq]
      refine List.sum_eq_zero (fun y hy => ?_)
      obtain ⟨v, hv, rfl⟩ := List.mem_map.mp hy
      rw [hall v hv, sub_self, zero_pow two_ne_zero]
    rw [stdev, havg, ht, zero_div, Real.sqrt_zero]
  refine ⟨havg, by rw [havg]; exact hc, hsd, ?_⟩
  rw [CV, hsd, mul_zero, zero_div]

theorem CV_const_witness :
    average ([3, 3, 3] : List ℝ) 3 = 3 ∧ average ([3, 3, 3] : List ℝ) 3 ≠ 0 ∧
    stdev Real.sqrt ([3, 3, 3] : List ℝ) 3 = 0 ∧ CV Real.sqrt ([3, 3, 3] : List ℝ) 3 = 0 :=
  CV_const [3, 3, 3] 3 (by simp) (by norm_num) (by simp)

end ConstantSequenceProofs

section IdempotenceProofs

variable {α : Type} [LinearOrder α]

theorem bubbleSort_of_sorted (A : List α) (hs : A.Sorted (· ≤ ·)) :
    bubbleSort A A.length = some A := by
  obtain ⟨B, hB, hBs, hBp⟩ := bubbleSort_spec A
  rw [hB, List.eq_of_perm_of_sorted hBp hBs hs]

/-- Claim C15. `bubbleSort` returns every non-decreasing sequence unchanged, and
sorting the result of `bubbleSort(A)` again returns that same result. -/
theorem bubbleSort_idempotent (A : List α) :
    (A.Sorted (· ≤ ·) → bubbleSort A A.length = some A) ∧
    ∃ B, bubbleSort A A.length = some B ∧ bubbleSort B B.length = some B := by
  refine ⟨bubbleSort_of_sorted A, ?_⟩
  obtain ⟨B, hB, hBs, -⟩ := bubbleSort_spec A
  exact ⟨B, hB, bubbleSort_of_sorted B hBs⟩

theorem bubbleSort_idempotent_witness :
    bubbleSort [1, 2, 2, 5] 4 = some [1, 2, 2, 5] :=
  (bubbleSort_idempotent [1, 2, 2, 5]).1 (by decide)

end IdempotenceProofs

section RoundingProofs

variable {α : Type} [LinearOrderedField α] [FloorRing α]

/-- The library `round` returns an integer at distance at most one half. -/
theorem round_spec (v : α) : (∃ n : ℤ, round v = (n : α)) ∧ |round v - v| ≤ 1 / 2 := by
  unfold round
  split_ifs with h
  · refine ⟨⟨_, rfl⟩, ?_⟩
    have h1 := Int.floor_le (v + 1 / 2)
    have h2 := Int.lt_floor_add_one (v + 1 / 2)
    rw [abs_le]
    constructor <;> linarith
  · refine ⟨⟨_, rfl⟩, ?_⟩
    have h1 := Int.le_ceil (v - 1 / 2)
    have h2 := Int.ceil_lt_add_one (v - 1 / 2)
    rw [abs_le]
    constructor <;> linarith

theorem getElem?_roundStep (prec : α) (A : List α) (k j : Nat) :
    (roundStep prec A k)[j]?
      = if j = k then (A[k]?).map (fun v => round (v * prec) / prec) else A[j]? := by
  unfold roundStep
  cases h : A[k]? with
  | none =>
    by_cases hjk : j = k
    · subst hjk; simp [h]
    · simp [hjk]
  | some v =>
    have hk : k < A.length := by
      by_contra hc
      rw [List.getElem?_eq_none (not_lt.mp hc)] at h
      exact Option.noConfusion h
    by_cases hjk : j = k
    · subst hjk; simp [List.getElem?_set_self, hk]
    · simp [hjk, List.getElem?_set_ne (Ne.symm hjk)]

theorem length_roundStep (prec : α) (A : List α) (k : Nat) :
    (roundStep prec A k).length = A.length := by
  unfold roundStep
  cases A[k]? <;> simp

/-- Loop invariant of `f_round`: after the indices `0, …, k-1` exactly those cells hold
their rounded value. -/
theorem foldl_roundStep (prec : α) (s : List α) (k : Nat) :
    ((List.range k).foldl (roundStep prec) s).length = s.length ∧
    ∀ j, ((List.range k).foldl (roundStep prec) s)[j]?
      = if j < k then (s[j]?).map (fun v => round (v * prec) / prec) else s[j]? := by
  induction k with
  | zero => simp
  | succ k ih =>
    rw [List.range_succ, List.foldl_append]
    simp only [List.foldl_cons, List.foldl_nil]
    refine ⟨by rw [length_roundStep, ih.1], fun j => ?_⟩
    rw [getElem?_roundStep, ih.2 j, ih.2 k]
    by_cases hjk : j = k
    · subst hjk; simp
    · by_cases hlt : j < k
      · simp [hjk, hlt, Nat.lt_succ_of_lt hlt]
      · have : ¬ j < k + 1 := by omega
        simp [hjk, hlt, this]

/-- Claim C13. After `f_round(s, m, p)` with `p ≥ 0` the length is unchanged and every
cell `i < m` holds a value `r` such that `r * 10^p` is an integer and `r` differs from the
original `s[i]` by at most `1 / (2 * 10^p)`; `f_round([1.2345], 1, 2) = [1.23]`. -/
theorem f_round_spec (s : List α) (p : ℤ) (_hp : 0 ≤ p) :
    (f_round s s.length p).length = s.length ∧
    (∀ i, (hi : i < s.length) → ∃ r, (f_round s s.length p)[i]? = some r ∧
      (∃ n : ℤ, r * (10 : α) ^ p = (n : α)) ∧ |r - s[i]| ≤ 1 / (2 * (10 : α) ^ p)) ∧
    f_round ([12345 / 10000] : List ℚ) 1 2 = [123 / 100] := by
  have hprec : (0 : α) < (10 : α) ^ p := zpow_pos (by norm_num) p
  obtain ⟨hlen, hget⟩ := foldl_roundStep ((10 : α) ^ p) s s.length
  refine ⟨hlen, fun i hi => ?_, by decide!⟩
  refine ⟨round (s[i] * (10 : α) ^ p) / (10 : α) ^ p, ?_, ?_, ?_⟩
  · rw [f_round, hget i, if_pos hi, List.getElem?_eq_getElem hi]; rfl
  · obtain ⟨n, hn⟩ := (round_spec (s[i] * (10 : α) ^ p)).1
    exact ⟨n, by rw [div_mul_cancel₀ _ hprec.ne', hn]⟩
  · have h2 := (round_spec (s[i] * (10 : α) ^ p)).2
    have e : round (s[i] * (10 : α) ^ p) / (10 : α) ^ p - s[i]
        = (round (s[i] * (10 : α) ^ p) - s[i] * (10 : α) ^ p) / (10 : α) ^ p := by
      field_simp
      ring
    rw [e, abs_div, abs_of_pos hprec, div_le_div_iff₀ hprec (by positivity)]
    calc |round (s[i] * (10 : α) ^ p) - s[i] * (10 : α) ^ p| * (2 * (10 : α) ^ p)
        ≤ 1 / 2 * (2 * (10 : α) ^ p) := by
          exact mul_le_mul_of_nonneg_right h2 (by positivity)
      _ = 1 * (10 : α) ^ p := by ring

theorem f_round_spec_witness :
    (f_round ([12345 / 10000, -5 / 2] : List ℚ) 2 0).length = 2 ∧
    ∃ r, (f_round ([12345 / 10000, -5 / 2] : List ℚ) 2 0)[1]? = some r ∧
      (∃ n : ℤ, r * (10 : ℚ) ^ (0 : ℤ) = (n : ℚ)) ∧
      |r - (-5 / 2)| ≤ 1 / (2 * (10 : ℚ) ^ (0 : ℤ)) :=
  ⟨(f_round_spec [12345 / 10000, -5 / 2] 0 (le_refl 0)).1,
    (f_round_spec [12345 / 10000, -5 / 2] 0 (le_refl 0)).2.1 1 (by decide)⟩

end RoundingProofs

section CleaningProofs

variable {β : Type}

/-- Loop invariant of the first loop of `filternan`: after the indices `0, …, k-1` the
first `nums` cells of `filtered[]` hold the kept elements of `s[0..k-1]` in order. -/
theorem foldl_filterStep (isnan isinf : β → Bool) (s : List β) : ∀ k, k ≤ s.length →
    ∃ st, (List.range k).foldl
        (fun acc i => acc.bind fun st => filterStep isnan isinf s st i)
        (some { filtered := List.replicate s.length none, duds := 0, nums := 0 }) = some st ∧
      st.filtered.length = s.length ∧
      st.nums = ((s.take k).filter fun v => !(isnan v || isinf v)).length ∧
      ∀ j, j < st.nums →
        st.filtered[j]? = (((s.take k).filter fun v => !(isnan v || isinf v))[j]?).map some := by
  intro k
  induction k with
  | zero => intro _; exact ⟨_, rfl, by simp, by simp, by simp⟩
  | succ k ih =>
    intro hk
    have hk2 : k < s.length := by omega
    obtain ⟨st, hst, hlen, hnums, hcells⟩ := ih (by omega)
    have hF : ((s.take k).filter fun v => !(isnan v || isinf v)).length ≤ k :=
      le_trans (List.length_filter_le _ _) (by simp [List.length_take, hk2.le])
    have htake : s.take (k + 1) = s.take k ++ [s[k]] := by
      rw [List.take_succ, List.getElem?_eq_getElem hk2]; rfl
    rw [List.range_succ, List.foldl_append, hst]
    simp only [List.foldl_cons, List.foldl_nil, Option.some_bind, filterStep,
      List.getElem?_eq_getElem hk2]
    by_cases hbad : (isnan s[k] || isinf s[k]) = true
    · rw [if_pos hbad]
      have hfil : ((s.take (k + 1)).filter fun v => !(isnan v || isinf v))
          = (s.take k).filter fun v => !(isnan v || isinf v) := by
        rw [htake, List.filter_append]
        cases h1 : isnan s[k] <;> cases h2 : isinf s[k] <;> simp [h1, h2] at hbad ⊢
      exact ⟨_, rfl, hlen, by rw [hfil]; exact hnums, by rw [hfil]; exact hcells⟩
    · rw [if_neg hbad, if_pos (by omega)]
      have hfil : ((s.take (k + 1)).filter fun v => !(isnan v || isinf v))
          = ((s.take k).filter fun v => !(isnan v || isinf v)) ++ [s[k]] := by
        rw [htake, List.filter_append]
        cases h1 : isnan s[k] <;> cases h2 : isinf s[k] <;> simp [h1, h2] at hbad ⊢
      refine ⟨_, rfl, by simp [hlen], by rw [hfil, List.length_append, ← hnums]; rfl, ?_⟩
      intro j hj
      simp only at hj ⊢
      rw [hfil]
      by_cases hjn : j = st.nums
      · subst hjn
        rw [List.getElem?_set_self (by omega), hnums,
          List.getElem?_append_right (le_refl _)]
        simp
      · have hj2 : j < st.nums := by omega
        rw [List.getElem?_set_ne (Ne.symm hjn), hcells j hj2,
          List.getElem?_append_left (by omega)]

/-- Loop invariant of the second loop of `filternan`: after the indices `0, …, j-1` those
cells of `samples[]` hold the first `j` kept elements and the others are unchanged. -/
theorem foldl_copyBackStep (filtered : List (Option β)) (F s : List β)
    (hF : F.length ≤ s.length)
    (hcells : ∀ j, j < F.length → filtered[j]? = (F[j]?).map some) : ∀ k, k ≤ F.length →
    ∃ A, (List.range k).foldl (fun acc i => acc.bind fun A => copyBackStep filtered A i)
        (some s) = some A ∧ A.length = s.length ∧
      ∀ j, A[j]? = if j < k then F[j]? else s[j]? := by
  intro k
  induction k with
  | zero => intro _; exact ⟨s, rfl, rfl, by simp⟩
  | succ k ih =>
    intro hk
    have hk2 : k < F.length := by omega
    obtain ⟨A, hA, hlen, hget⟩ := ih (by omega)
    rw [List.range_succ, List.foldl_append, hA]
    simp only [List.foldl_cons, List.foldl_nil, Option.some_bind, copyBackStep,
      hcells k hk2, List.getElem?_eq_getElem hk2, Option.map_some']
    rw [if_pos (by omega)]
    refine ⟨_, rfl, by simp [hlen], fun j => ?_⟩
    by_cases hjk : j = k
    · subst hjk
      rw [List.getElem?_set_self (by omega), if_pos (Nat.lt_succ_self _),
        List.getElem?_eq_getElem hk2]
    · rw [List.getElem?_set_ne (Ne.symm hjk), hget j]
      by_cases hlt : j < k
      · rw [if_pos hlt, if_pos (Nat.lt_succ_of_lt hlt)]
      · rw [if_neg hlt, if_neg (by omega)]

/-- Claim C12. `filternan(s, m)` returns: the new `m` is the number `k` of elements of `s`
that are neither NaN nor infinite, `k` is at most the old `m`, the array keeps its size, and
its first `k` cells are those elements in their original order.  On
`[1.0, NaN, 3.0, Infinity, 5.0]` the prefix is `[1.0, 3.0, 5.0]` and the length `3`. -/
theorem filternan_spec :
    (∀ (β : Type) (isnan isinf : β → Bool) (s : List β),
      ∃ A k, filternan isnan isinf s s.length = some (A, k) ∧
        k = (s.filter fun v => !(isnan v || isinf v)).length ∧ k ≤ s.length ∧
        A.length = s.length ∧ A.take k = s.filter fun v => !(isnan v || isinf v)) ∧
    (∀ v : FloatVal, (!(v.isnan || v.isinf)) = true ↔ ∃ q, v = .finite q) ∧
    filternan FloatVal.isnan FloatVal.isinf
        [.finite 1, .nan, .finite 3, .posInf, .finite 5] 5
      = some ([.finite 1, .finite 3, .finite 5, .posInf, .finite 5], 3) := by
  refine ⟨?_, ?_, by decide!⟩
  · intro β isnan isinf s
    obtain ⟨st, hst, hlen, hnums, hcells⟩ := foldl_filterStep isnan isinf s s.length (le_refl _)
    rw [List.take_length] at hnums hcells
    have hF : (s.filter fun v => !(isnan v || isinf v)).length ≤ s.length :=
      List.length_filter_le _ _
    obtain ⟨A, hA, hAlen, hget⟩ := foldl_copyBackStep st.filtered
      (s.filter fun v => !(isnan v || isinf v)) s hF
      (fun j hj => hcells j (by omega)) st.nums (by omega)
    refine ⟨A, st.nums, ?_, hnums, by omega, hAlen, ?_⟩
    · simp only [filternan, hst, Option.some_bind, hA, Option.map_some']
    · apply List.ext_getElem?
      intro j
      by_cases hj : j < st.nums
      · rw [List.getElem?_take_of_lt hj, hget j, if_pos hj]
      · rw [List.getElem?_take_eq_none (not_lt.mp hj), List.getElem?_eq_none (by omega)]
  · intro v
    cases v <;> simp [FloatVal.isnan, FloatVal.isinf]

end CleaningProofs

section PassLogProofs

variable {α : Type} [LinearOrder α]

theorem swapStepLog_fst (st : (List α × Nat) × List (Nat × Bool)) (p : Nat) :
    (swapStepLog st p).1 = swapStep st.1 p := by
  unfold swapStepLog
  split <;> rfl

theorem length_swapStep (st : List α × Nat) (p : Nat) :
    (swapStep st p).1.length = st.1.length := by
  unfold swapStep
  split
  · split_ifs <;> simp
  · rfl

/-- The logged loop computes the same state as the loop, and logs every index of the range
whose two cells are inside the array. -/
theorem foldl_swapStepLog (ps : List Nat) : ∀ (st : (List α × Nat) × List (Nat × Bool)),
    (∀ p ∈ ps, 1 ≤ p ∧ p < st.1.1.length) →
    (ps.foldl swapStepLog st).1 = ps.foldl swapStep st.1 ∧
    (ps.foldl swapStepLog st).2.map Prod.fst = st.2.map Prod.fst ++ ps := by
  induction ps with
  | nil => intro st _; simp
  | cons p ps ih =>
    intro st hps
    have hp := hps p (List.mem_cons_self p ps)
    have hlen : (swapStepLog st p).1.1.length = st.1.1.length := by
      rw [swapStepLog_fst, length_swapStep]
    obtain ⟨h1, h2⟩ := ih (swapStepLog st p) (fun q hq => by
      rw [hlen]; exact hps q (List.mem_cons_of_mem p hq))
    rw [List.foldl_cons, List.foldl_cons, h1, h2, swapStepLog_fst]
    refine ⟨rfl, ?_⟩
    have hlog : (swapStepLog st p).2.map Prod.fst = st.2.map Prod.fst ++ [p] := by
      unfold swapStepLog
      rw [List.getElem?_eq_getElem (by omega : p - 1 < st.1.1.length),
        List.getElem?_eq_getElem hp.2]
      simp
    rw [hlog, List.append_assoc, List.singleton_append]

theorem bubblePassLog_spec (A : List α) :
    (bubblePassLog A A.length).1 = bubblePass A A.length ∧
    (bubblePassLog A A.length).2.map Prod.fst = List.range' 1 (A.length - 1) := by
  have := foldl_swapStepLog (List.range' 1 (A.length - 1)) ((A, 1), []) (by
    intro p hp
    rw [List.mem_range'_1] at hp
    simp only
    omega)
  simpa [bubblePassLog, bubblePass] using this

/-- On an ascending array no comparison of the logged loop succeeds. -/
theorem foldl_swapStepLog_sorted (A : List α) (hs : A.Sorted (· ≤ ·)) (ps : List Nat) :
    ∀ (n : Nat) (log : List (Nat × Bool)), (∀ e ∈ log, e.2 = false) →
      ∀ e ∈ (ps.foldl swapStepLog ((A, n), log)).2, e.2 = false := by
  induction ps with
  | nil => intro n log hlog; simpa using hlog
  | cons p ps ih =>
    intro n log hlog
    rw [List.foldl_cons]
    have key : ∃ log2, swapStepLog ((A, n), log) p = ((A, n), log2) ∧
        ∀ e ∈ log2, e.2 = false := by
      unfold swapStepLog swapStep
      simp only
      cases h1 : A[p - 1]? with
      | none => exact ⟨log, rfl, hlog⟩
      | some a =>
        cases h2 : A[p]? with
        | none => exact ⟨log, rfl, hlog⟩
        | some b =>
          obtain ⟨hp1, rfl⟩ := List.getElem?_eq_some_iff.mp h1
          obtain ⟨hp2, rfl⟩ := List.getElem?_eq_some_iff.mp h2
          have hle : A[p - 1] ≤ A[p] := sorted_getElem_le hs (Nat.sub_le p 1) hp2
          have hng : ¬ A[p - 1] > A[p] := not_lt.mpr hle
          refine ⟨log ++ [(p, false)], by simp [hng], ?_⟩
          intro e he
          rcases List.mem_append.mp he with he | he
          · exact hlog e he
          · rw [List.mem_singleton.mp he]
    obtain ⟨log2, e, hlog2⟩ := key
    rw [e]
    exact ih n log2 hlog2

theorem inversions_cons (a : α) (l : List α) :
    inversions (a :: l) = (l.countP fun b => a > b) + inversions l := rfl

/-- A pass never increases the number of inversions, and decreases it when the segment is
not ascending. -/
theorem bubAux_inversions (l : List α) : ∀ (p n : Nat) (a : α),
    inversions (bubAux p n a l).1 ≤ inversions (a :: l) ∧
    (¬ (a :: l).Sorted (· ≤ ·) → inversions (bubAux p n a l).1 < inversions (a :: l)) := by
  induction l with
  | nil => intro p n a; simp [bubAux]
  | cons b l ih =>
    intro p n a
    by_cases h : a > b
    · obtain ⟨ih1, -⟩ := ih (p + 1) p a
      have hperm := bubAux_perm l (p + 1) p a
      have hc : ((bubAux (p + 1) p a l).1.countP fun c => b > c) = l.countP fun c => b > c := by
        rw [hperm.countP_eq, List.countP_cons_of_neg]
        simpa using le_of_lt h
      have hlt : inversions (b :: (bubAux (p + 1) p a l).1) < inversions (a :: b :: l) := by
        rw [inversions_cons, inversions_cons a, inversions_cons b, hc,
          List.countP_cons_of_pos _ _ (by simpa using h)]
        rw [inversions_cons] at ih1
        omega
      simp only [bubAux, h, if_true]
      exact ⟨le_of_lt hlt, fun _ => hlt⟩
    · obtain ⟨ih1, ih2⟩ := ih (p + 1) n b
      have hperm := bubAux_perm l (p + 1) n b
      have hc : ((bubAux (p + 1) n b l).1.countP fun c => a > c)
          = (b :: l).countP fun c => a > c := hperm.countP_eq _
      simp only [bubAux, h, if_false]
      rw [inversions_cons, inversions_cons a, hc]
      refine ⟨by omega, fun hns => ?_⟩
      have : ¬ (b :: l).Sorted (· ≤ ·) := by
        intro hs
        apply hns
        refine List.sorted_cons.mpr ⟨fun c hc => ?_, hs⟩
        rcases List.mem_cons.mp hc with rfl | hc
        · exact not_lt.mp h
        · exact le_trans (not_lt.mp h) (List.rel_of_sorted_cons hs c hc)
      have := ih2 this
      omega

theorem bubblePass_inversions (A : List α) (hns : ¬ A.Sorted (· ≤ ·)) :
    inversions (bubblePass A A.length).1 < inversions A := by
  cases A with
  | nil => exact absurd List.sorted_nil hns
  | cons a l => rw [bubblePass_cons]; exact (bubAux_inversions l 1 1 a).2 hns

theorem bubblePass_of_sorted (A : List α) (hs : A.Sorted (· ≤ ·)) :
    bubblePass A A.length = (A, 1) := by
  cases A with
  | nil => rfl
  | cons a l => rw [bubblePass_cons, bubAux_sorted l 1 1 a hs]

/-- Claim C18. The loop of `bubbleSort` exits within `max(len, 1)` passes; a pass that swaps
(one whose log holds a successful comparison, and in particular one after which the loop
goes on, `newn > 1`) strictly lowers the number of inversions. -/
theorem bubbleSort_terminates (A : List α) :
    (∃ B, bubbleLoop (max A.length 1) A A.length = some B) ∧
    (bubblePassLog A A.length).1 = bubblePass A A.length ∧
    ((∃ e ∈ (bubblePassLog A A.length).2, e.2 = true) →
      inversions (bubblePass A A.length).1 < inversions A) ∧
    ((bubblePass A A.length).2 > 1 →
      inversions (bubblePass A A.length).1 < inversions A) := by
  refine ⟨?_, (bubblePassLog_spec A).1, ?_, ?_⟩
  · obtain ⟨B, hB, -, -⟩ := bubbleLoop_spec (max A.length 1) A []
      (le_max_right _ _) (by have := le_max_left A.length 1; omega) List.sorted_nil (by simp)
    exact ⟨B, by simpa using hB⟩
  · rintro ⟨e, he, hswap⟩
    apply bubblePass_inversions
    intro hs
    have := foldl_swapStepLog_sorted A hs (List.range' 1 (A.length - 1)) 1 [] (by simp) e he
    rw [this] at hswap
    exact Bool.false_ne_true hswap
  · intro hn
    apply bubblePass_inversions
    intro hs
    rw [bubblePass_of_sorted A hs] at hn
    exact absurd hn (lt_irrefl 1)

theorem bubbleSort_terminates_witness :
    inversions (bubblePass [3, 2, 1] 3).1 < inversions [3, 2, 1] ∧
    bubbleLoop 3 [3, 2, 1] 3 = some [1, 2, 3] := by
  refine ⟨(bubbleSort_terminates [3, 2, 1]).2.2.2 (by decide), by decide⟩

/-- Claim C17, evaluated on the code. Every pass of `bubbleSort`, whatever the bound left
by the pass before it, compares the pairs at all positions `1, …, len-1`: the inner loop
runs `p < len`, and `n` only decides whether another pass is made.  On `[2,3,1,4,5]` the
first pass leaves `[2,1,3,4,5]` with last swap at `n = 2`, and the second pass compares the
pairs at positions `1`, `2`, `3` and `4`, of which only the first is below `n`. -/
theorem bubblePass_ignores_bound :
    (∀ (β : Type) [LinearOrder β] (A : List β),
      (bubblePassLog A A.length).1 = bubblePass A A.length ∧
      (bubblePassLog A A.length).2.map Prod.fst = List.range' 1 (A.length - 1)) ∧
    bubblePass [2, 3, 1, 4, 5] 5 = ([2, 1, 3, 4, 5], 2) ∧
    (bubblePassLog [2, 1, 3, 4, 5] 5).2 = [(1, true), (2, false), (3, false), (4, false)] ∧
    bubbleLoop 2 [2, 3, 1, 4, 5] 5 = some [1, 2, 3, 4, 5] := by
  refine ⟨fun β _ A => bubblePassLog_spec A, by decide, by decide, by decide⟩

end PassLogProofs

section ModeInvariantProofs

theorem modeInit_eq {α : Type} (B : List α) (hpos : 0 < B.length) :
    modeInit B B.length = some
      { unique := (List.replicate B.length none).set 0 (some B[0])
        uniquect := (List.replicate B.length none).set 0 (some 1)
        p := 0, maxp := 0, maxidx := 0 } := by
  simp [modeInit, List.getElem?_eq_getElem hpos, hpos]

variable {α : Type} [LinearOrderedField α]

theorem modeInv_init (B : List α) (epsilon : α) (hpos : 0 < B.length) :
    ModeInv B epsilon 0
      { unique := (List.replicate B.length none).set 0 (some B[0])
        uniquect := (List.replicate B.length none).set 0 (some 1)
        p := 0, maxp := 0, maxidx := 0 } where
  unique_length := by simp
  uniquect_length := by simp
  p_le := le_refl 0
  maxidx_le := le_refl 0
  unique_written := by
    intro j hj
    have hj0 : j = 0 := Nat.le_zero.mp hj
    subst hj0
    exact ⟨B[0], by rw [List.getElem?_set_self (by simpa using hpos)], List.getElem_mem _⟩
  uniquect_written := by
    intro j hj
    have hj0 : j = 0 := Nat.le_zero.mp hj
    subst hj0
    exact ⟨1, by rw [List.getElem?_set_self (by simpa using hpos)], le_refl 1⟩
  branch := Or.inl ⟨rfl, rfl, fun j hj => absurd hj (by omega)⟩

/-- One iteration of the scan loop of `mode` succeeds and keeps the invariant. -/
theorem modeStep_inv (B : List α) (epsilon : α) (k : Nat) (st : ModeState α)
    (inv : ModeInv B epsilon k st) (hk : k + 1 < B.length) :
    ∃ st2, modeStep B epsilon st (k + 1) = some st2 ∧ ModeInv B epsilon (k + 1) st2 := by
  have hp : st.p < B.length := by have := inv.p_le; omega
  by_cases hnear : fabs (B[k + 1] - B[st.p]) < epsilon
  · -- the comparison succeeds: the count of bucket `p` goes up
    obtain ⟨c, hc, hc1⟩ := inv.uniquect_written st.p (le_refl _)
    have hpc : st.p < st.uniquect.length := by rw [inv.uniquect_length]; exact hp
    have hadj : ∃ j, j + 1 ≤ k + 1 ∧ fabs (B.getD (j + 1) 0 - B.getD j 0) < epsilon := by
      rcases inv.branch with ⟨-, hpk, -⟩ | ⟨-, j, hj, hjn⟩
      · refine ⟨k, le_refl _, ?_⟩
        rw [List.getD_eq_getElem B 0 hk, List.getD_eq_getElem B 0 (by omega : k < B.length)]
        simpa [hpk] using hnear
      · exact ⟨j, by omega, hjn⟩
    have hwritten : ∀ j, j ≤ st.p →
        ∃ d, (st.uniquect.set st.p (some (c + 1)))[j]? = some (some d) ∧ 1 ≤ d := by
      intro j hj
      by_cases hjp : j = st.p
      · subst hjp
        exact ⟨c + 1, by rw [List.getElem?_set_self hpc], by omega⟩
      · rw [List.getElem?_set_ne (Ne.symm hjp)]
        exact inv.uniquect_written j hj
    by_cases hmax : c + 1 > st.maxp
    · refine ⟨{ st with uniquect := st.uniquect.set st.p (some (c + 1))
                        maxp := c + 1, maxidx := st.p }, ?_, ?_⟩
      · simp only [modeStep, List.getElem?_eq_getElem hk, List.getElem?_eq_getElem hp,
          if_pos hnear, hc, if_pos hmax]
      · exact
          { unique_length := inv.unique_length
            uniquect_length := by simp [inv.uniquect_length]
            p_le := Nat.le_succ_of_le inv.p_le
            maxidx_le := le_refl _
            unique_written := inv.unique_written
            uniquect_written := hwritten
            branch := Or.inr ⟨by simp only; omega, hadj⟩ }
    · refine ⟨{ st with uniquect := st.uniquect.set st.p (some (c + 1)) }, ?_, ?_⟩
      · simp only [modeStep, List.getElem?_eq_getElem hk, List.getElem?_eq_getElem hp,
          if_pos hnear, hc, if_neg hmax]
      · exact
          { unique_length := inv.unique_length
            uniquect_length := by simp [inv.uniquect_length]
            p_le := Nat.le_succ_of_le inv.p_le
            maxidx_le := inv.maxidx_le
            unique_written := inv.unique_written
            uniquect_written := hwritten
            branch := Or.inr ⟨by simp only; omega, hadj⟩ }
  · -- the comparison fails: a new bucket is opened
    have hu : st.p + 1 < st.unique.length := by
      rw [inv.unique_length]; have := inv.p_le; omega
    have huc : st.p + 1 < st.uniquect.length := by
      rw [inv.uniquect_length]; have := inv.p_le; omega
    refine ⟨_, modeStep_far B epsilon st (k + 1) hk hp hnear hu huc, ?_⟩
    exact
      { unique_length := by simp [inv.unique_length]
        uniquect_length := by simp [inv.uniquect_length]
        p_le := by have := inv.p_le; simp only; omega
        maxidx_le := Nat.le_succ_of_le inv.maxidx_le
        unique_written := by
          intro j hj
          simp only at hj ⊢
          by_cases hjp : j = st.p + 1
          · subst hjp
            exact ⟨B[k + 1], by rw [List.getElem?_set_self hu], List.getElem_mem _⟩
          · rw [List.getElem?_set_ne (Ne.symm hjp)]
            exact inv.unique_written j (by omega)
        uniquect_written := by
          intro j hj
          simp only at hj ⊢
          by_cases hjp : j = st.p + 1
          · subst hjp
            exact ⟨1, by rw [List.getElem?_set_self huc], le_refl 1⟩
          · rw [List.getElem?_set_ne (Ne.symm hjp)]
            exact inv.uniquect_written j (by omega)
        branch := by
          rcases inv.branch with ⟨hm0, hpk, hfar⟩ | ⟨hm1, j, hj, hjn⟩
          · refine Or.inl ⟨hm0, by simp only; omega, fun j hj => ?_⟩
            by_cases hjk : j = k
            · subst hjk
              rw [List.getD_eq_getElem B 0 hk,
                List.getD_eq_getElem B 0 (by omega : j < B.length)]
              simpa [hpk] using hnear
            · exact hfar j (by omega)
          · exact Or.inr ⟨hm1, j, by omega, hjn⟩ }

/-- The scan loop of `mode`, run up to the top of iteration `i`, succeeds and satisfies the
invariant. -/
theorem modeScan_inv (B : List α) (epsilon : α) (hpos : 0 < B.length) :
    ∀ k, k + 1 ≤ B.length →
      ∃ st, modeScan B (k + 1) epsilon
          { unique := (List.replicate B.length none).set 0 (some B[0])
            uniquect := (List.replicate B.length none).set 0 (some 1)
            p := 0, maxp := 0, maxidx := 0 } = some st ∧
        ModeInv B epsilon k st := by
  intro k
  induction k with
  | zero => intro _; exact ⟨_, rfl, modeInv_init B epsilon hpos⟩
  | succ k ih =>
    intro hk
    obtain ⟨st, hst, inv⟩ := ih (by omega)
    obtain ⟨st2, hst2, inv2⟩ := modeStep_inv B epsilon k st inv (by omega)
    refine ⟨st2, ?_, inv2⟩
    have hst1 : (List.range' 1 k).foldl
        (fun acc i => acc.bind fun s => modeStep B epsilon s i) (some _) = some st := hst
    rw [modeScan, Nat.add_sub_cancel, List.range'_concat, List.foldl_append, hst1, one_mul]
    simp only [List.foldl_cons, List.foldl_nil, Option.some_bind]
    rw [Nat.add_comm 1 k]
    exact hst2

/-- What `mode` returns, from the final state of the scan. -/
theorem mode_of_scan (s B : List α) (epsilon : α) (st0 st : ModeState α) (u : α)
    (hB : bubbleSort (copySamples s s.length) s.length = some B)
    (h0 : modeInit B s.length = some st0)
    (hst : modeScan B s.length epsilon st0 = some st)
    (hu : st.unique[st.maxidx]? = some (some u)) :
    mode s s.length epsilon = some (if 1 < st.maxp then u else 0) := by
  simp only [mode, hB, Option.some_bind, h0, hst, hu]
  split_ifs <;> rfl

/-- Claim C19. On a non-empty sequence every array access of `mode` succeeds, so `mode`
returns; at the top of every iteration `i` of the scan (and at its exit, `i = m`) the
counter satisfies `p ≤ i - 1 < m`, `maxidx ≤ p`, the bucket arrays have `m` cells and
their cells `0, …, p` have been written. -/
theorem mode_in_bounds (s : List α) (epsilon : α) (hne : s ≠ []) :
    (∃ v, mode s s.length epsilon = some v) ∧
    ∃ B st0, bubbleSort (copySamples s s.length) s.length = some B ∧
      B.length = s.length ∧ modeInit B s.length = some st0 ∧
      ∀ i, 1 ≤ i → i ≤ s.length →
        ∃ st, modeScan B i epsilon st0 = some st ∧
          st.p ≤ i - 1 ∧ i - 1 < s.length ∧ st.maxidx ≤ st.p ∧
          st.unique.length = s.length ∧ st.uniquect.length = s.length ∧
          ∀ j, j ≤ st.p →
            (∃ u, st.unique[j]? = some (some u)) ∧ (∃ c, st.uniquect[j]? = some (some c)) := by
  obtain ⟨B, hB, -, -, hlen⟩ := sortedCopy_spec s
  have hpos : 0 < B.length := by rw [hlen]; exact List.length_pos.mpr hne
  have h0 : modeInit B s.length = some
      { unique := (List.replicate B.length none).set 0 (some B[0])
        uniquect := (List.replicate B.length none).set 0 (some 1)
        p := 0, maxp := 0, maxidx := 0 } := by
    rw [← hlen]; exact modeInit_eq B hpos
  constructor
  · obtain ⟨st, hst, inv⟩ := modeScan_inv B epsilon hpos (s.length - 1) (by omega)
    rw [Nat.sub_add_cancel (hlen ▸ hpos : 1 ≤ s.length)] at hst
    obtain ⟨u, hu, -⟩ := inv.unique_written st.maxidx inv.maxidx_le
    exact ⟨_, mode_of_scan s B epsilon _ st u hB h0 hst hu⟩
  · refine ⟨B, _, hB, hlen, h0, fun i hi1 him => ?_⟩
    obtain ⟨st, hst, inv⟩ := modeScan_inv B epsilon hpos (i - 1) (by omega)
    rw [Nat.sub_add_cancel hi1] at hst
    refine ⟨st, hst, inv.p_le, by omega, inv.maxidx_le, by rw [inv.unique_length, hlen],
      by rw [inv.uniquect_length, hlen], fun j hj => ?_⟩
    obtain ⟨u, hu, -⟩ := inv.unique_written j hj
    obtain ⟨c, hc, -⟩ := inv.uniquect_written j hj
    exact ⟨⟨u, hu⟩, ⟨c, hc⟩⟩

theorem mode_in_bounds_witness :
    ∃ v, mode ([3, 1, 1, 2] : List ℚ) 4 (1 / 2) = some v :=
  (mode_in_bounds [3, 1, 1, 2] (1 / 2) (by simp)).1

/-- Over exact arithmetic, on a non-empty sequence with `epsilon > 0`, `mode` returns `0.0`
or an element of `s`; it returns through the branch `maxp > 1` (then with an element of
`s`, otherwise with `0.0`) exactly when two neighbours of the ascending sorted copy are
less than `epsilon` apart.  This is the exact-arithmetic part of claim C20; `mode_branch`
adds the binary32 part. -/
theorem mode_result (s : List α) (epsilon : α) (hne : s ≠ []) (_heps : 0 < epsilon) :
    ∃ B st0 st v, bubbleSort (copySamples s s.length) s.length = some B ∧
      B.Sorted (· ≤ ·) ∧ B.Perm s ∧
      modeInit B s.length = some st0 ∧ modeScan B s.length epsilon st0 = some st ∧
      mode s s.length epsilon = some v ∧ (v = 0 ∨ v ∈ s) ∧
      (1 < st.maxp → v ∈ s) ∧ (¬ 1 < st.maxp → v = 0) ∧
      (1 < st.maxp ↔ ∃ j, ∃ h : j + 1 < B.length, |B[j + 1] - B[j]| < epsilon) := by
  obtain ⟨B, hB, hs, hperm, hlen⟩ := sortedCopy_spec s
  have hpos : 0 < B.length := by rw [hlen]; exact List.length_pos.mpr hne
  have h0 : modeInit B s.length = some
      { unique := (List.replicate B.length none).set 0 (some B[0])
        uniquect := (List.replicate B.length none).set 0 (some 1)
        p := 0, maxp := 0, maxidx := 0 } := by
    rw [← hlen]; exact modeInit_eq B hpos
  obtain ⟨st, hst, inv⟩ := modeScan_inv B epsilon hpos (s.length - 1) (by omega)
  rw [Nat.sub_add_cancel (hlen ▸ hpos : 1 ≤ s.length)] at hst
  obtain ⟨u, hu, huB⟩ := inv.unique_written st.maxidx inv.maxidx_le
  have hus : u ∈ s := hperm.subset huB
  have hmode := mode_of_scan s B epsilon _ st u hB h0 hst hu
  refine ⟨B, _, st, _, hB, hs, hperm, h0, hst, hmode, ?_, ?_, ?_, ?_⟩
  · split_ifs
    · exact Or.inr hus
    · exact Or.inl rfl
  · intro h; rw [if_pos h]; exact hus
  · intro h; rw [if_neg h]
  · constructor
    · intro hmax
      rcases inv.branch with ⟨hm0, -, -⟩ | ⟨-, j, hj, hjn⟩
      · omega
      · have h1 : j + 1 < B.length := by omega
        refine ⟨j, h1, ?_⟩
        rw [List.getD_eq_getElem B 0 h1, List.getD_eq_getElem B 0 (by omega : j < B.length),
          fabs_eq_abs] at hjn
        exact hjn
    · rintro ⟨j, h1, hjn⟩
      rcases inv.branch with ⟨-, -, hfar⟩ | ⟨hm1, -⟩
      · exfalso
        apply hfar j (by omega)
        rw [List.getD_eq_getElem B 0 h1, List.getD_eq_getElem B 0 (by omega : j < B.length),
          fabs_eq_abs]
        exact hjn
      · exact hm1

theorem mode_result_witness :
    ∃ v, mode ([3, 1, 1, 2] : List ℚ) 4 (1 / 2) = some v ∧
      (v = 0 ∨ v ∈ ([3, 1, 1, 2] : List ℚ)) := by
  obtain ⟨-, -, -, v, -, -, -, -, -, hv, hmem, -⟩ :=
    mode_result ([3, 1, 1, 2] : List ℚ) (1 / 2) (by simp) (by norm_num)
  exact ⟨v, hv, hmem⟩

end ModeInvariantProofs



section Binary32Proofs

theorem leadBitAux_spec : ∀ (fuel n : Nat), n ≤ fuel → 0 < n →
    2 ^ leadBitAux fuel n ≤ n ∧ n < 2 ^ (leadBitAux fuel n + 1) := by
  intro fuel
  induction fuel with
  | zero => intro n h1 h2; omega
  | succ fuel ih =>
    intro n h1 h2
    by_cases h : n < 2
    · have hn : n = 1 := by omega
      subst hn
      simp [leadBitAux]
    · obtain ⟨l, u⟩ := ih (n / 2) (by omega) (by omega)
      simp only [leadBitAux, if_neg h]
      constructor
      · rw [pow_succ]
        exact (Nat.le_div_iff_mul_le (by norm_num)).mp l
      · rw [pow_succ]
        exact (Nat.div_lt_iff_lt_mul (by norm_num)).mp u

/-- The leading bit of a positive `n` is at position `leadBit n`. -/
theorem leadBit_spec (n : Nat) (hn : 0 < n) :
    2 ^ leadBit n ≤ n ∧ n < 2 ^ (leadBit n + 1) :=
  leadBitAux_spec n n (le_refl n) hn

/-- The leading bit of a non-zero `x` has the exponent `leadExp x`. -/
theorem leadExp_spec (x : ℚ) (hx : x ≠ 0) :
    (2 : ℚ) ^ leadExp x ≤ |x| ∧ |x| < (2 : ℚ) ^ (leadExp x + 1) := by
  have hnum : 0 < x.num.natAbs := Int.natAbs_pos.mpr (Rat.num_ne_zero.mpr hx)
  obtain ⟨la, ua⟩ := leadBit_spec x.num.natAbs hnum
  obtain ⟨lb, ub⟩ := leadBit_spec x.den x.den_pos
  have hden : (0 : ℚ) < (x.den : ℚ) := by exact_mod_cast x.den_pos
  have habs : |x| = (x.num.natAbs : ℚ) / (x.den : ℚ) := by
    conv_lhs => rw [← Rat.num_div_den x]
    rw [abs_div, abs_of_pos hden, Nat.cast_natAbs, Int.cast_abs]
  have la' : (2 : ℚ) ^ (leadBit x.num.natAbs : ℤ) ≤ (x.num.natAbs : ℚ) := by
    rw [zpow_natCast]; exact_mod_cast la
  have ua' : (x.num.natAbs : ℚ) < (2 : ℚ) ^ ((leadBit x.num.natAbs : ℤ) + 1) := by
    rw [zpow_add_one₀ (by norm_num), zpow_natCast, ← pow_succ]; exact_mod_cast ua
  have lb' : (2 : ℚ) ^ (leadBit x.den : ℤ) ≤ (x.den : ℚ) := by
    rw [zpow_natCast]; exact_mod_cast lb
  have ub' : (x.den : ℚ) < (2 : ℚ) ^ ((leadBit x.den : ℤ) + 1) := by
    rw [zpow_add_one₀ (by norm_num), zpow_natCast, ← pow_succ]; exact_mod_cast ub
  have h2 : (0 : ℚ) < 2 := by norm_num
  have pa : (0 : ℚ) < (2 : ℚ) ^ (leadBit x.num.natAbs : ℤ) := zpow_pos h2 _
  have pb : (0 : ℚ) < (2 : ℚ) ^ (leadBit x.den : ℤ) := zpow_pos h2 _
  -- bounds one binade below and above the difference of the two positions
  have lower : (2 : ℚ) ^ ((leadBit x.num.natAbs : ℤ) - (leadBit x.den : ℤ) - 1) ≤ |x| := by
    rw [habs, le_div_iff₀ hden]
    have e : (2 : ℚ) ^ ((leadBit x.num.natAbs : ℤ) - (leadBit x.den : ℤ) - 1)
        * (2 : ℚ) ^ ((leadBit x.den : ℤ) + 1) = (2 : ℚ) ^ (leadBit x.num.natAbs : ℤ) := by
      rw [← zpow_add₀ (by norm_num : (2 : ℚ) ≠ 0)]; congr 1; ring
    calc (2 : ℚ) ^ ((leadBit x.num.natAbs : ℤ) - (leadBit x.den : ℤ) - 1) * (x.den : ℚ)
        ≤ (2 : ℚ) ^ ((leadBit x.num.natAbs : ℤ) - (leadBit x.den : ℤ) - 1)
            * (2 : ℚ) ^ ((leadBit x.den : ℤ) + 1) :=
          mul_le_mul_of_nonneg_left ub'.le (zpow_pos h2 _).le
      _ = (2 : ℚ) ^ (leadBit x.num.natAbs : ℤ) := e
      _ ≤ (x.num.natAbs : ℚ) := la'
  have upper : |x| < (2 : ℚ) ^ ((leadBit x.num.natAbs : ℤ) - (leadBit x.den : ℤ) + 1) := by
    rw [habs, div_lt_iff₀ hden]
    have e : (2 : ℚ) ^ ((leadBit x.num.natAbs : ℤ) - (leadBit x.den : ℤ) + 1)
        * (2 : ℚ) ^ (leadBit x.den : ℤ) = (2 : ℚ) ^ ((leadBit x.num.natAbs : ℤ) + 1) := by
      rw [← zpow_add₀ (by norm_num : (2 : ℚ) ≠ 0)]; congr 1; ring
    calc (x.num.natAbs : ℚ) < (2 : ℚ) ^ ((leadBit x.num.natAbs : ℤ) + 1) := ua'
      _ = (2 : ℚ) ^ ((leadBit x.num.natAbs : ℤ) - (leadBit x.den : ℤ) + 1)
            * (2 : ℚ) ^ (leadBit x.den : ℤ) := e.symm
      _ ≤ (2 : ℚ) ^ ((leadBit x.num.natAbs : ℤ) - (leadBit x.den : ℤ) + 1) * (x.den : ℚ) :=
          mul_le_mul_of_nonneg_left lb' (zpow_pos h2 _).le
  unfold leadExp
  split_ifs with h
  · exact ⟨h, upper⟩
  · refine ⟨lower, ?_⟩
    rw [sub_add_cancel]
    exact not_le.mp h

/-- The rounding `roundEven` moves an exact number by at most one half. -/
theorem roundEven_spec (x : ℚ) : |(roundEven x : ℚ) - x| ≤ 1 / 2 := by
  have h1 := Int.floor_le x
  have h2 := Int.lt_floor_add_one x
  unfold roundEven
  rw [abs_le]
  split_ifs with a b c
  · constructor <;> linarith
  · push_cast; constructor <;> linarith
  · constructor <;> linarith
  · push_cast; constructor <;> linarith

/-- A finite value delivered by `fl32` is a multiple of the unit in the last place, within
half a unit of the exact result and below `2^128` in magnitude. -/
theorem fl32_finite (x y : ℚ) (h : fl32 x = .finite y) :
    (∃ n : ℤ, y = (n : ℚ) * 2 ^ max (leadExp x - 23) (-149)) ∧
    |y - x| ≤ 2 ^ max (leadExp x - 23) (-149) / 2 ∧ |y| < 2 ^ (128 : ℤ) := by
  unfold fl32 at h
  split_ifs at h with h0 hov
  · have hy : y = 0 := by injection h with h; exact h.symm
    subst hy; subst h0
    refine ⟨⟨0, by simp⟩, ?_, by positivity⟩
    simp only [sub_self, abs_zero]
    positivity
  · have hy : (roundEven (x / 2 ^ max (leadExp x - 23) (-149)) : ℚ)
        * 2 ^ max (leadExp x - 23) (-149) = y := by injection h
    have hq : (0 : ℚ) < 2 ^ max (leadExp x - 23) (-149) := zpow_pos (by norm_num) _
    refine ⟨⟨_, hy.symm⟩, ?_, by rw [← hy]; exact not_le.mp hov⟩
    have hr := roundEven_spec (x / 2 ^ max (leadExp x - 23) (-149))
    have e : y - x = ((roundEven (x / 2 ^ max (leadExp x - 23) (-149)) : ℚ)
        - x / 2 ^ max (leadExp x - 23) (-149)) * 2 ^ max (leadExp x - 23) (-149) := by
      rw [← hy]; field_simp
    rw [e, abs_mul, abs_of_pos hq]
    calc |(roundEven (x / 2 ^ max (leadExp x - 23) (-149)) : ℚ)
          - x / 2 ^ max (leadExp x - 23) (-149)| * 2 ^ max (leadExp x - 23) (-149)
        ≤ 1 / 2 * 2 ^ max (leadExp x - 23) (-149) := mul_le_mul_of_nonneg_right hr hq.le
      _ = 2 ^ max (leadExp x - 23) (-149) / 2 := by ring

/-- The significand that `fl32` rounds to has at most 24 bits (or is `2^24`, the first
value of the next binade). -/
theorem fl32_significand (x : ℚ) (hx : x ≠ 0) :
    |roundEven (x / 2 ^ max (leadExp x - 23) (-149))| ≤ 2 ^ 24 := by
  have hq : (0 : ℚ) < 2 ^ max (leadExp x - 23) (-149) := zpow_pos (by norm_num) _
  have hup := (leadExp_spec x hx).2
  have hle : (2 : ℚ) ^ (leadExp x + 1) ≤ 2 ^ (max (leadExp x - 23) (-149) + 24) :=
    zpow_le_zpow_right₀ (by norm_num) (by have := le_max_left (leadExp x - 23) (-149); omega)
  have hz : |x / 2 ^ max (leadExp x - 23) (-149)| < 2 ^ (24 : ℕ) := by
    rw [abs_div, abs_of_pos hq, div_lt_iff₀ hq]
    calc |x| < (2 : ℚ) ^ (leadExp x + 1) := hup
      _ ≤ 2 ^ (max (leadExp x - 23) (-149) + 24) := hle
      _ = 2 ^ (24 : ℕ) * 2 ^ max (leadExp x - 23) (-149) := by
          rw [zpow_add₀ (by norm_num : (2 : ℚ) ≠ 0), mul_comm]; norm_num
  have hr := roundEven_spec (x / 2 ^ max (leadExp x - 23) (-149))
  have habs : |(roundEven (x / 2 ^ max (leadExp x - 23) (-149)) : ℚ)| < 2 ^ (24 : ℕ) + 1 := by
    have h1 := abs_sub_abs_le_abs_sub
      (roundEven (x / 2 ^ max (leadExp x - 23) (-149)) : ℚ)
      (x / 2 ^ max (leadExp x - 23) (-149))
    linarith
  have hint : |roundEven (x / 2 ^ max (leadExp x - 23) (-149))| < 2 ^ 24 + 1 := by
    have : ((|roundEven (x / 2 ^ max (leadExp x - 23) (-149))| : ℤ) : ℚ)
        < ((2 ^ 24 + 1 : ℤ) : ℚ) := by
      rw [Int.cast_abs]
      norm_num at habs ⊢
      exact habs
    exact_mod_cast this
  omega

end Binary32Proofs

section Binary32Order

theorem roundEven_floor_le (z : ℚ) : ⌊z⌋ ≤ roundEven z := by
  unfold roundEven
  split_ifs <;> omega

theorem roundEven_le_ceil (z : ℚ) : roundEven z ≤ ⌈z⌉ := by
  have hfl := Int.floor_le_ceil z
  by_cases hz : (⌊z⌋ : ℚ) = z
  · have h0 : z - ⌊z⌋ < 1 / 2 := by rw [hz]; norm_num
    unfold roundEven
    rw [if_pos h0]
    exact hfl
  · have hlt : (⌊z⌋ : ℚ) < z := lt_of_le_of_ne (Int.floor_le z) hz
    have hc : ⌊z⌋ + 1 ≤ ⌈z⌉ := by
      have : ⌊z⌋ < ⌈z⌉ := by
        rw [Int.lt_ceil]; exact hlt
      omega
    unfold roundEven
    split_ifs <;> omega

/-- The exponent of the leading bit is the only `k` with `2^k ≤ |x| < 2^(k+1)`. -/
theorem leadExp_eq (x : ℚ) (hx : x ≠ 0) (k : ℤ) (h1 : (2 : ℚ) ^ k ≤ |x|)
    (h2 : |x| < (2 : ℚ) ^ (k + 1)) : leadExp x = k := by
  obtain ⟨l, u⟩ := leadExp_spec x hx
  by_contra hne
  rcases lt_or_gt_of_ne hne with h | h
  · have : (2 : ℚ) ^ (leadExp x + 1) ≤ 2 ^ k :=
      zpow_le_zpow_right₀ (by norm_num) (by omega)
    linarith
  · have : (2 : ℚ) ^ (k + 1) ≤ 2 ^ leadExp x :=
      zpow_le_zpow_right₀ (by norm_num) (by omega)
    linarith

theorem leadExp_two_mul (x : ℚ) (hx : x ≠ 0) : leadExp (2 * x) = leadExp x + 1 := by
  obtain ⟨l, u⟩ := leadExp_spec x hx
  apply leadExp_eq (2 * x) (mul_ne_zero two_ne_zero hx)
  · rw [abs_mul, abs_of_pos (by norm_num : (0 : ℚ) < 2), zpow_add_one₀ (by norm_num)]
    linarith
  · rw [abs_mul, abs_of_pos (by norm_num : (0 : ℚ) < 2), zpow_add_one₀ (by norm_num)]
    linarith

/-- A multiple of `2^b` is a multiple of `2^a` when `a ≤ b`. -/
theorem grid_coarser (n : ℤ) (a b : ℤ) (hab : a ≤ b) :
    ∃ m : ℤ, (n : ℚ) * 2 ^ b = (m : ℚ) * 2 ^ a := by
  refine ⟨n * 2 ^ (b - a).toNat, ?_⟩
  have e : ((b - a).toNat : ℤ) = b - a := Int.toNat_of_nonneg (by omega)
  push_cast
  rw [mul_assoc, ← zpow_natCast, e, ← zpow_add₀ (by norm_num : (2 : ℚ) ≠ 0)]
  congr 2
  ring

/-- The unit in the last place of the binade of `x`, as `fl32` uses it. -/
theorem fl32_of_ne_zero (x : ℚ) (hx : x ≠ 0) (y : ℚ) (h : fl32 x = .finite y) :
    y = (roundEven (x / 2 ^ max (leadExp x - 23) (-149)) : ℚ)
      * 2 ^ max (leadExp x - 23) (-149) := by
  unfold fl32 at h
  rw [if_neg hx] at h
  split_ifs at h
  injection h with h
  exact h.symm

/-- Rounding does not cross a float below the exact result: if `f` lies on the grid of its
own binade and `f ≤ x`, then `f ≤ fl32 x`. -/
theorem fl32_ge_of_le (x y f : ℚ) (n : ℤ) (h : fl32 x = .finite y)
    (hf : f = (n : ℚ) * 2 ^ max (leadExp f - 23) (-149)) (hfx : f ≤ x) : f ≤ y := by
  by_cases hx : x = 0
  · subst hx
    have : y = 0 := by
      unfold fl32 at h; rw [if_pos rfl] at h; injection h with h; exact h.symm
    rw [this]; exact hfx
  have hy := fl32_of_ne_zero x hx y h
  have hq : (0 : ℚ) < 2 ^ max (leadExp x - 23) (-149) := zpow_pos (by norm_num) _
  have hr : (⌊x / 2 ^ max (leadExp x - 23) (-149)⌋ : ℚ)
      ≤ (roundEven (x / 2 ^ max (leadExp x - 23) (-149)) : ℚ) := by
    exact_mod_cast roundEven_floor_le _
  by_cases hf0 : f = 0
  · -- zero lies on every grid
    rw [hf0] at hfx ⊢
    rw [hy]
    have : (0 : ℚ) ≤ (⌊x / 2 ^ max (leadExp x - 23) (-149)⌋ : ℚ) := by
      exact_mod_cast Int.floor_nonneg.mpr (div_nonneg hfx hq.le)
    exact mul_nonneg (le_trans this hr) hq.le
  by_cases hgrid : max (leadExp x - 23) (-149) ≤ max (leadExp f - 23) (-149)
  · -- `f` is a multiple of the unit of `x`
    obtain ⟨m, hm⟩ := grid_coarser n _ _ hgrid
    rw [hf, hm, hy]
    apply mul_le_mul_of_nonneg_right _ hq.le
    refine le_trans ?_ hr
    have : (m : ℚ) ≤ x / 2 ^ max (leadExp x - 23) (-149) := by
      rw [le_div_iff₀ hq, ← hm, ← hf]; exact hfx
    exact_mod_cast Int.le_floor.mpr this
  · -- `f` lies in a lower binade than `x`
    have hgrid2 : max (leadExp f - 23) (-149) < max (leadExp x - 23) (-149) := not_le.mp hgrid
    have hex : max (leadExp x - 23) (-149) = leadExp x - 23 := by
      have := le_max_right (leadExp f - 23) (-149)
      rcases max_cases (leadExp x - 23) (-149) with ⟨h1, -⟩ | ⟨h1, -⟩
      · exact h1
      · omega
    have hlead : leadExp f + 1 ≤ leadExp x := by
      have := le_max_left (leadExp f - 23) (-149)
      omega
    have hfabs : |f| < (2 : ℚ) ^ leadExp x :=
      lt_of_lt_of_le (leadExp_spec f hf0).2 (zpow_le_zpow_right₀ (by norm_num) hlead)
    have hxabs : (2 : ℚ) ^ leadExp x ≤ |x| := (leadExp_spec x hx).1
    rcases lt_or_gt_of_ne hx with hneg | hpos
    · -- a negative `x` above `f` would be smaller in magnitude
      exfalso
      have h1 : |x| = -x := abs_of_neg hneg
      have h2 : |f| = -f := abs_of_neg (lt_of_le_of_lt hfx hneg)
      linarith
    · have h1 : |x| = x := abs_of_pos hpos
      have hc : ((2 ^ 23 : ℤ) : ℚ) = (2 : ℚ) ^ (23 : ℤ) := by norm_num
      have hpow : (2 : ℚ) ^ leadExp x = ((2 ^ 23 : ℤ) : ℚ) * 2 ^ max (leadExp x - 23) (-149) := by
        rw [hex, hc, ← zpow_add₀ (by norm_num : (2 : ℚ) ≠ 0)]
        congr 1
        ring
      have hfl : ((2 ^ 23 : ℤ) : ℚ) ≤ (⌊x / 2 ^ max (leadExp x - 23) (-149)⌋ : ℚ) := by
        have : ((2 ^ 23 : ℤ) : ℚ) ≤ x / 2 ^ max (leadExp x - 23) (-149) := by
          rw [le_div_iff₀ hq, ← hpow]; linarith
        exact_mod_cast Int.le_floor.mpr this
      have : (2 : ℚ) ^ leadExp x ≤ y := by
        rw [hy, hpow]
        exact mul_le_mul_of_nonneg_right (le_trans hfl hr) hq.le
      have := le_abs_self f
      linarith

/-- Rounding does not cross a float above the exact result: if `f` lies on the grid of its
own binade and `x ≤ f`, then `fl32 x ≤ f`. -/
theorem fl32_le_of_le (x y f : ℚ) (n : ℤ) (h : fl32 x = .finite y)
    (hf : f = (n : ℚ) * 2 ^ max (leadExp f - 23) (-149)) (hxf : x ≤ f) : y ≤ f := by
  by_cases hx : x = 0
  · subst hx
    have : y = 0 := by
      unfold fl32 at h; rw [if_pos rfl] at h; injection h with h; exact h.symm
    rw [this]; exact hxf
  have hy := fl32_of_ne_zero x hx y h
  have hq : (0 : ℚ) < 2 ^ max (leadExp x - 23) (-149) := zpow_pos (by norm_num) _
  have hr : (roundEven (x / 2 ^ max (leadExp x - 23) (-149)) : ℚ)
      ≤ (⌈x / 2 ^ max (leadExp x - 23) (-149)⌉ : ℚ) := by
    exact_mod_cast roundEven_le_ceil _
  by_cases hf0 : f = 0
  · rw [hf0] at hxf ⊢
    rw [hy]
    have : (⌈x / 2 ^ max (leadExp x - 23) (-149)⌉ : ℚ) ≤ 0 := by
      exact_mod_cast Int.ceil_le.mpr (by
        push_cast; exact div_nonpos_of_nonpos_of_nonneg hxf hq.le)
    exact mul_nonpos_of_nonpos_of_nonneg (le_trans hr this) hq.le
  by_cases hgrid : max (leadExp x - 23) (-149) ≤ max (leadExp f - 23) (-149)
  · obtain ⟨m, hm⟩ := grid_coarser n _ _ hgrid
    rw [hf, hm, hy]
    apply mul_le_mul_of_nonneg_right _ hq.le
    refine le_trans hr ?_
    have : x / 2 ^ max (leadExp x - 23) (-149) ≤ (m : ℚ) := by
      rw [div_le_iff₀ hq, ← hm, ← hf]; exact hxf
    exact_mod_cast Int.ceil_le.mpr this
  · have hgrid2 : max (leadExp f - 23) (-149) < max (leadExp x - 23) (-149) := not_le.mp hgrid
    have hex : max (leadExp x - 23) (-149) = leadExp x - 23 := by
      have := le_max_right (leadExp f - 23) (-149)
      rcases max_cases (leadExp x - 23) (-149) with ⟨h1, -⟩ | ⟨h1, -⟩
      · exact h1
      · omega
    have hlead : leadExp f + 1 ≤ leadExp x := by
      have := le_max_left (leadExp f - 23) (-149)
      omega
    have hfabs : |f| < (2 : ℚ) ^ leadExp x :=
      lt_of_lt_of_le (leadExp_spec f hf0).2 (zpow_le_zpow_right₀ (by norm_num) hlead)
    have hxabs : (2 : ℚ) ^ leadExp x ≤ |x| := (leadExp_spec x hx).1
    rcases lt_or_gt_of_ne hx with hneg | hpos
    · have h1 : |x| = -x := abs_of_neg hneg
      have hc : ((2 ^ 23 : ℤ) : ℚ) = (2 : ℚ) ^ (23 : ℤ) := by norm_num
      have hpow : (2 : ℚ) ^ leadExp x = ((2 ^ 23 : ℤ) : ℚ) * 2 ^ max (leadExp x - 23) (-149) := by
        rw [hex, hc, ← zpow_add₀ (by norm_num : (2 : ℚ) ≠ 0)]
        congr 1
        ring
      have hcl : (⌈x / 2 ^ max (leadExp x - 23) (-149)⌉ : ℚ) ≤ ((-(2 ^ 23) : ℤ) : ℚ) := by
        have : x / 2 ^ max (leadExp x - 23) (-149) ≤ ((-(2 ^ 23) : ℤ) : ℚ) := by
          rw [div_le_iff₀ hq, Int.cast_neg, neg_mul, ← hpow]; linarith
        exact_mod_cast Int.ceil_le.mpr this
      have : y ≤ -(2 : ℚ) ^ leadExp x := by
        have h3 := mul_le_mul_of_nonneg_right (le_trans hr hcl) hq.le
        rw [Int.cast_neg, neg_mul, ← hpow, ← hy] at h3
        exact h3
      have := neg_abs_le f
      linarith
    · exfalso
      have h1 : |x| = x := abs_of_pos hpos
      have h2 : |f| = f := abs_of_pos (lt_of_lt_of_le hpos hxf)
      linarith

/-- A float lies on the grid of its own binade. -/
theorem float_on_grid (f : ℚ) (hf : fl32 f = .finite f) :
    ∃ n : ℤ, f = (n : ℚ) * 2 ^ max (leadExp f - 23) (-149) :=
  (fl32_finite f f hf).1

/-- The double of a number on the grid of its binade lies on the grid of its binade. -/
theorem double_on_grid (f : ℚ) (n : ℤ)
    (hf : f = (n : ℚ) * 2 ^ max (leadExp f - 23) (-149)) :
    ∃ m : ℤ, 2 * f = (m : ℚ) * 2 ^ max (leadExp (2 * f) - 23) (-149) := by
  by_cases hf0 : f = 0
  · exact ⟨0, by rw [hf0]; simp⟩
  · have hle : max (leadExp (2 * f) - 23) (-149) ≤ max (leadExp f - 23) (-149) + 1 := by
      rw [leadExp_two_mul f hf0]
      rcases max_cases (leadExp f + 1 - 23) (-149) with ⟨h1, -⟩ | ⟨h1, -⟩ <;>
        rcases max_cases (leadExp f - 23) (-149) with ⟨h2, -⟩ | ⟨h2, -⟩ <;> omega
    obtain ⟨m, hm⟩ := grid_coarser n _ _ hle
    refine ⟨m, ?_⟩
    rw [← hm, zpow_add_one₀ (by norm_num : (2 : ℚ) ≠ 0)]
    calc 2 * f = 2 * ((n : ℚ) * 2 ^ max (leadExp f - 23) (-149)) := by rw [← hf]
      _ = (n : ℚ) * (2 ^ max (leadExp f - 23) (-149) * 2) := by ring

/-- An exact result below `2^127` in magnitude rounds to a finite float. -/
theorem fl32_finite_of_lt (x : ℚ) (hx : |x| < 2 ^ (127 : ℤ)) : ∃ y, fl32 x = .finite y := by
  by_cases h0 : x = 0
  · exact ⟨0, by rw [h0]; rfl⟩
  · have hL : leadExp x ≤ 126 := by
      by_contra hc
      have h1 : (2 : ℚ) ^ (127 : ℤ) ≤ 2 ^ leadExp x :=
        zpow_le_zpow_right₀ (by norm_num) (by omega)
      have := (leadExp_spec x h0).1
      linarith
    have he : max (leadExp x - 23) (-149) ≤ 103 := by
      rcases max_cases (leadExp x - 23) (-149) with ⟨h1, -⟩ | ⟨h1, -⟩ <;> omega
    have hq : (0 : ℚ) < 2 ^ max (leadExp x - 23) (-149) := zpow_pos (by norm_num) _
    have hq2 : (2 : ℚ) ^ max (leadExp x - 23) (-149) ≤ 2 ^ (103 : ℤ) :=
      zpow_le_zpow_right₀ (by norm_num) he
    have hr : |(roundEven (x / 2 ^ max (leadExp x - 23) (-149)) : ℚ)| ≤ 2 ^ (24 : ℤ) := by
      have := fl32_significand x h0
      rw [← Int.cast_abs]
      have h2 : ((2 ^ 24 : ℤ) : ℚ) = (2 : ℚ) ^ (24 : ℤ) := by norm_num
      rw [← h2]
      exact_mod_cast this
    have hlt : ¬ (2 : ℚ) ^ (128 : ℤ)
        ≤ |(roundEven (x / 2 ^ max (leadExp x - 23) (-149)) : ℚ)
            * 2 ^ max (leadExp x - 23) (-149)| := by
      rw [abs_mul, abs_of_pos hq, not_le]
      calc |(roundEven (x / 2 ^ max (leadExp x - 23) (-149)) : ℚ)|
            * 2 ^ max (leadExp x - 23) (-149)
          ≤ 2 ^ (24 : ℤ) * 2 ^ (103 : ℤ) :=
            mul_le_mul hr hq2 hq.le (by positivity)
        _ < 2 ^ (128 : ℤ) := by norm_num
    refine ⟨(roundEven (x / 2 ^ max (leadExp x - 23) (-149)) : ℚ)
      * 2 ^ max (leadExp x - 23) (-149), ?_⟩
    unfold fl32
    rw [if_neg h0, if_neg hlt]

/-- In binary32 the mean `(a+b)/2` of two floats `a ≤ b`, computed as on line 129, lies
between them when the sum does not overflow. -/
theorem mean32_between (a b y : ℚ) (ha : fl32 a = .finite a) (hb : fl32 b = .finite b)
    (hab : a ≤ b) (hsum : FloatVal.add (.finite a) (.finite b) = .finite y) :
    ∃ w, FloatVal.div (FloatVal.add (.finite a) (.finite b)) (.finite 2) = .finite w ∧
      a ≤ w ∧ w ≤ b := by
  have hy : fl32 (a + b) = .finite y := hsum
  obtain ⟨na, hna⟩ := float_on_grid a ha
  obtain ⟨nb, hnb⟩ := float_on_grid b hb
  obtain ⟨ma, hma⟩ := double_on_grid a na hna
  obtain ⟨mb, hmb⟩ := double_on_grid b nb hnb
  have h1 : 2 * a ≤ y := fl32_ge_of_le (a + b) y (2 * a) ma hy hma (by linarith)
  have h2 : y ≤ 2 * b := fl32_le_of_le (a + b) y (2 * b) mb hy hmb (by linarith)
  have hylt : |y| < 2 ^ (128 : ℤ) := (fl32_finite (a + b) y hy).2.2
  have hhalf : |y / 2| < 2 ^ (127 : ℤ) := by
    rw [abs_div, abs_of_pos (by norm_num : (0 : ℚ) < 2), div_lt_iff₀ (by norm_num)]
    calc |y| < 2 ^ (128 : ℤ) := hylt
      _ = 2 ^ (127 : ℤ) * 2 := by norm_num
  obtain ⟨w, hw⟩ := fl32_finite_of_lt (y / 2) hhalf
  refine ⟨w, ?_, ?_, ?_⟩
  · rw [hsum]
    simp only [FloatVal.div, ieeeDiv, if_neg (two_ne_zero : (2 : ℚ) ≠ 0), hw]
  · exact fl32_ge_of_le (y / 2) w a na hw hna (by linarith)
  · exact fl32_le_of_le (y / 2) w b nb hw hnb (by linarith)

end Binary32Order

section ModeByProofs

variable {α : Type}

end ModeByProofs

section Median32Proofs

/-- What `median32` returns, in terms of the sorted copy `B`. -/
theorem median32_of_sorted (s B : List ℚ) (hne : s ≠ [])
    (hB : bubbleSort (copySamples s s.length) s.length = some B) (hlen : B.length = s.length) :
    ∃ (h1 : s.length / 2 - 1 < B.length) (h2 : s.length / 2 < B.length),
      median32 s s.length =
        some (if s.length % 2 = 1 then .finite B[s.length / 2]
          else FloatVal.div
            (FloatVal.add (.finite B[s.length / 2 - 1]) (.finite B[s.length / 2]))
            (.finite 2)) := by
  have hpos : 0 < s.length := List.length_pos.mpr hne
  have h2 : s.length / 2 < B.length := by omega
  have h1 : s.length / 2 - 1 < B.length := by omega
  refine ⟨h1, h2, ?_⟩
  by_cases hodd : s.length % 2 = 1
  · simp [median32, hB, bitRead_zero, hodd, List.getElem?_eq_getElem h2]
  · simp [median32, hB, bitRead_zero, hodd, List.getElem?_eq_getElem h2,
      List.getElem?_eq_getElem h1]

theorem FloatVal.le_finite (a b : ℚ) :
    FloatVal.le (.finite a) (.finite b) = true ↔ a ≤ b := by
  simp [FloatVal.le]

/-- Claim C4, refuted on the code. `2^127` is a finite float; on `[2^127, 2^127]` the
minimum and the maximum are `2^127`, while the sum of line 129 overflows in binary32 and
`median` returns `+Infinity`, which is above the maximum. -/
theorem median32_exceeds_maximum :
    fl32 ((2 : ℚ) ^ (127 : ℕ)) = .finite ((2 : ℚ) ^ (127 : ℕ)) ∧
    minimum [(2 : ℚ) ^ (127 : ℕ), (2 : ℚ) ^ (127 : ℕ)] 2 = some ((2 : ℚ) ^ (127 : ℕ)) ∧
    maximum [(2 : ℚ) ^ (127 : ℕ), (2 : ℚ) ^ (127 : ℕ)] 2 = some ((2 : ℚ) ^ (127 : ℕ)) ∧
    FloatVal.add (.finite ((2 : ℚ) ^ (127 : ℕ))) (.finite ((2 : ℚ) ^ (127 : ℕ))) = .posInf ∧
    median32 [(2 : ℚ) ^ (127 : ℕ), (2 : ℚ) ^ (127 : ℕ)] 2 = some .posInf ∧
    FloatVal.le .posInf (.finite ((2 : ℚ) ^ (127 : ℕ))) = false ∧
    FloatVal.lt (.finite ((2 : ℚ) ^ (127 : ℕ))) .posInf = true := by
  refine ⟨by decide!, by decide!, by decide!, by decide!, by decide!, by decide!, by decide!⟩

/-- Claim C4, as amended. Over exact arithmetic `minimum(s, m) ≤ median(s, m) ≤
maximum(s, m)` on every non-empty sequence.  In binary32, on a non-empty sequence of finite
floats, the same holds when `m` is odd, and when `m` is even provided the sum of the two
middle cells of the sorted copy, computed on line 129, does not overflow. -/
theorem median_between :
    (∀ (β : Type) [LinearOrderedField β] (s : List β), s ≠ [] →
      ∃ lo med hi, minimum s s.length = some lo ∧ median s s.length = some med ∧
        maximum s s.length = some hi ∧ lo ≤ med ∧ med ≤ hi) ∧
    (∀ s : List ℚ, s ≠ [] → (∀ v ∈ s, fl32 v = .finite v) →
      ∃ B lo med hi, bubbleSort (copySamples s s.length) s.length = some B ∧
        minimum s s.length = some lo ∧ median32 s s.length = some med ∧
        maximum s s.length = some hi ∧
        (s.length % 2 = 1 →
          FloatVal.le (.finite lo) med = true ∧ FloatVal.le med (.finite hi) = true) ∧
        (s.length % 2 = 0 →
          (∀ a b, B[s.length / 2 - 1]? = some a → B[s.length / 2]? = some b →
            ∃ y, FloatVal.add (.finite a) (.finite b) = .finite y) →
          FloatVal.le (.finite lo) med = true ∧ FloatVal.le med (.finite hi) = true)) := by
  refine ⟨fun β _ s hne => minimum_le_median_le_maximum s hne, ?_⟩
  intro s hne hfloat
  obtain ⟨B, hB, hs, hp, hlen⟩ := sortedCopy_spec s
  obtain ⟨h1, h2, hmed⟩ := median32_of_sorted s B hne hB hlen
  have hpos : 0 < B.length := by omega
  have hlast : s.length - 1 < B.length := by omega
  have a1 : B[0] ≤ B[s.length / 2 - 1] := sorted_getElem_le hs (Nat.zero_le _) h1
  have a2 : B[0] ≤ B[s.length / 2] := sorted_getElem_le hs (Nat.zero_le _) h2
  have b1 : B[s.length / 2 - 1] ≤ B[s.length - 1] := sorted_getElem_le hs (by omega) hlast
  have b2 : B[s.length / 2] ≤ B[s.length - 1] := sorted_getElem_le hs (by omega) hlast
  have ab : B[s.length / 2 - 1] ≤ B[s.length / 2] := sorted_getElem_le hs (by omega) h2
  refine ⟨B, B[0], _, B[s.length - 1], hB, ?_, hmed, ?_, ?_, ?_⟩
  · simp [minimum, hB, List.getElem?_eq_getElem hpos]
  · simp [maximum, hB, List.getElem?_eq_getElem hlast]
  · intro hodd
    rw [if_pos hodd, FloatVal.le_finite, FloatVal.le_finite]
    exact ⟨a2, b2⟩
  · intro heven hfin
    obtain ⟨y, hy⟩ := hfin _ _ (List.getElem?_eq_getElem h1) (List.getElem?_eq_getElem h2)
    have fa := hfloat _ (hp.subset (List.getElem_mem h1))
    have fb := hfloat _ (hp.subset (List.getElem_mem h2))
    obtain ⟨w, hw, hw1, hw2⟩ := mean32_between _ _ y fa fb ab hy
    have hodd : ¬ s.length % 2 = 1 := by omega
    rw [if_neg hodd, hw, FloatVal.le_finite, FloatVal.le_finite]
    exact ⟨le_trans a1 hw1, le_trans hw2 b2⟩

theorem median_between_witness :
    ∃ lo med hi, minimum ([4, 1, 3, 2] : List ℚ) 4 = some lo ∧
      median32 [4, 1, 3, 2] 4 = some med ∧ maximum ([4, 1, 3, 2] : List ℚ) 4 = some hi ∧
      FloatVal.le (.finite lo) med = true ∧ FloatVal.le med (.finite hi) = true := by
  have hfloat : ∀ v ∈ ([4, 1, 3, 2] : List ℚ), fl32 v = .finite v := by decide!
  obtain ⟨B, lo, med, hi, hB, hlo, hmed, hhi, -, heven⟩ :=
    median_between.2 [4, 1, 3, 2] (by simp) hfloat
  have hB2 : bubbleSort (copySamples ([4, 1, 3, 2] : List ℚ) 4) 4 = some [1, 2, 3, 4] := by
    decide!
  have hBeq : B = [1, 2, 3, 4] := Option.some.inj (hB.symm.trans hB2)
  subst hBeq
  refine ⟨lo, med, hi, hlo, hmed, hhi, heven (by decide) ?_⟩
  intro a b ha hb
  have ha2 : a = 2 := (Option.some.inj ha).symm
  have hb2 : b = 3 := (Option.some.inj hb).symm
  subst ha2 hb2
  exact ⟨5, by decide!⟩

end Median32Proofs

end QuickStats
